import Mathlib

/-!
Verification of the coverage-optimization core of csi-cc.

This file gives a shallow embedding, in Lean 4, of the coverage-set oracle
(src/instrumentor/NaiveCoverageSet.cpp), the greedy local optimizer
(src/instrumentor/NaiveOptimizationGraph.cpp and
src/instrumentor/CoverageOptimizationGraph.cpp), the dominator-tree optimizer
(src/instrumentor/DominatorOptimizationGraph.cpp) and the cutting-plane
skeleton of the exact optimizer (src/instrumentor/LEMONUtils.cpp), and proves
or refutes the documented properties of those components.

Basic blocks are modelled as natural numbers.  A control-flow graph is a
finite node set together with a successor-list function; predecessor lists
are derived from the successor lists exactly as the LLVM pred_iterator
enumerates CFG predecessors.  All worklist loops of the C++ code are modelled
as fuel-indexed structural recursions; each is run with a fuel that provably
exceeds the number of iterations the loop can perform, and the stabilization
theorem for the searches (claim C9) shows the value is independent of the
fuel from that point on, i.e. the C++ while-loops terminate with this value.
-/

namespace CsiCov

/-- Model of a control-flow graph: the finite set of basic blocks and the
successor lists (`fwdEdges` of CoverageOptimizationGraph).  `succFn` may be
any function; only its values filtered to `V` are ever consulted, matching
well-formed LLVM functions whose successor edges stay inside the function. -/
structure Graph where
  V : Finset ℕ
  succFn : ℕ → List ℕ

/-- The members of a finite set of naturals listed in ascending order.
Iteration over a std::set of basic blocks is modelled by this canonical
enumeration (the C++ order, by pointer value, is unspecified but fixed;
every use below is order-insensitive except equal-cost tie-breaking, which
is analysed separately). -/
def ascList (s : Finset ℕ) : List ℕ :=
  (List.range (s.sup id + 1)).filter (fun m => m ∈ s)

/-- Successor list of a node (targets are always nodes of the graph). -/
def Graph.succs (g : Graph) (n : ℕ) : List ℕ :=
  (g.succFn n).filter (fun m => m ∈ g.V)

/-- Predecessor list of a node, derived from the successor lists the way
the LLVM pred_iterator enumerates CFG predecessors. -/
def Graph.preds (g : Graph) (n : ℕ) : List ℕ :=
  (ascList g.V).filter (fun m => n ∈ g.succs m)

/-- Neighbour function for a search direction: successors when walking
forward, predecessors when walking backward. -/
def Graph.nbr (g : Graph) (forward : Bool) : ℕ → List ℕ :=
  if forward then g.succs else g.preds

/-- An upper bound on the length of any neighbour list of a graph node,
used to size the fuel of the worklist loops. -/
def Graph.degBound (g : Graph) : ℕ :=
  max (g.V.sup fun n => (g.succs n).length) g.V.card

/-- One edge of the graph. -/
def Edge (g : Graph) (a b : ℕ) : Prop := b ∈ g.succs a

/-- Nonempty directed path in the graph. -/
def Reach (g : Graph) (a b : ℕ) : Prop := Relation.TransGen (Edge g) a b

/-- Search step relation: one edge whose target avoids the excluded set.
A chain of these steps is a path all of whose nodes after the first avoid
the excluded set. -/
def SRel (nbr : ℕ → List ℕ) (excl : Finset ℕ) (a b : ℕ) : Prop :=
  b ∈ nbr a ∧ b ∉ excl

/-- Step relation whose source is outside a (visited) set; chains of these
steps describe what a search that never expands visited nodes can reach. -/
def SrcRel (nbr : ℕ → List ℕ) (vis : Finset ℕ) (a b : ℕ) : Prop :=
  b ∈ nbr a ∧ a ∉ vis

/-- Worklist loop shared by the two halves of connectedExcluding
(NaiveCoverageSet.cpp, lines 270-280 and 287-297): pop a node; skip it when
already visited or excluded, otherwise mark it visited and enqueue its
neighbours.  The C++ while-loop is indexed by fuel; see searchStable. -/
def searchAux (nbr : ℕ → List ℕ) (excl : Finset ℕ) :
    ℕ → Finset ℕ → List ℕ → Finset ℕ
  | 0, visited, _ => visited
  | _ + 1, visited, [] => visited
  | fuel + 1, visited, n :: wl =>
    if n ∈ visited ∨ n ∈ excl then searchAux nbr excl fuel visited wl
    else searchAux nbr excl fuel (insert n visited) (wl ++ nbr n)

/-- Number of loop iterations searchAux can still perform from a state, used
as its fuel: one per worklist entry plus, for every unvisited graph node, one
visit and the neighbours it may enqueue. -/
def searchFuel (g : Graph) (visited : Finset ℕ) (wl : List ℕ) : ℕ :=
  wl.length + (g.V \ visited).card * (g.degBound + 1)

/-- Worklist seeded with the neighbours of every node of a set, matching the
seeding loops of connectedExcluding and isConnectedExcluding. -/
def seedWl (nbr : ℕ → List ℕ) (s : Finset ℕ) : List ℕ :=
  (ascList s).foldr (fun i acc => nbr i ++ acc) []

/-- Nodes visited by the forward (or backward) half of connectedExcluding:
the start set itself plus everything reached from it while avoiding the
excluded set. -/
def visitedHalf (g : Graph) (forward : Bool) (s excl : Finset ℕ) : Finset ℕ :=
  searchAux (g.nbr forward) excl
    (searchFuel g s (seedWl (g.nbr forward) s)) s (seedWl (g.nbr forward) s)

/-- connectedExcluding (NaiveCoverageSet.cpp, lines 257-304): nodes lying on
some path from `f` to `t` avoiding `excl`, computed as the intersection of a
forward search from `f` and a backward search from `t`. -/
def connectedExcluding (g : Graph) (f t excl : Finset ℕ) : Finset ℕ :=
  visitedHalf g true f excl ∩ visitedHalf g false t excl

/-- Worklist loop of isConnectedExcluding (NaiveCoverageSet.cpp, lines
240-252): pop a node; skip when visited or excluded; answer true when it is
a target; otherwise mark visited and enqueue successors. -/
def connAux (nbr : ℕ → List ℕ) (t excl : Finset ℕ) :
    ℕ → Finset ℕ → List ℕ → Bool
  | 0, _, _ => false
  | _ + 1, _, [] => false
  | fuel + 1, visited, n :: wl =>
    if n ∈ visited ∨ n ∈ excl then connAux nbr t excl fuel visited wl
    else if n ∈ t then true
    else connAux nbr t excl fuel (insert n visited) (wl ++ nbr n)

/-- isConnectedExcluding (NaiveCoverageSet.cpp, lines 225-255): is some node
of `t` reachable from `f` on a path avoiding `excl`?  Nodes shared by `f`
and `t` answer true immediately. -/
def isConnectedExcluding (g : Graph) (f t excl : Finset ℕ) : Bool :=
  if (f ∩ t).Nonempty then true
  else connAux g.succs t excl
    (searchFuel g f (seedWl g.succs f)) f (seedWl g.succs f)

/-- Worklist loop of oneHop (NaiveCoverageSet.cpp, lines 159-177): pop a
node; record it when it is a target; expand it unless already visited (the
visited set starts as the whole target set, so targets are never expanded).
Returns the final (visited, result) pair. -/
def oneHopAux (nbr : ℕ → List ℕ) (t : Finset ℕ) :
    ℕ → Finset ℕ → Finset ℕ → List ℕ → Finset ℕ × Finset ℕ
  | 0, visited, result, _ => (visited, result)
  | _ + 1, visited, result, [] => (visited, result)
  | fuel + 1, visited, result, n :: wl =>
    let result' := if n ∈ t then insert n result else result
    if n ∈ visited then oneHopAux nbr t fuel visited result' wl
    else oneHopAux nbr t fuel (insert n visited) result' (wl ++ nbr n)

/-- oneHop (NaiveCoverageSet.cpp, lines 141-178): the nearest nodes of `t`
encountered walking forward (or backward) from `frm`; the search stops at
`t`-nodes but records them.  The result is returned instead of being
accumulated through a reference argument. -/
def oneHop (g : Graph) (forward : Bool) (frm : ℕ) (t : Finset ℕ) : Finset ℕ :=
  (oneHopAux (g.nbr forward) t
    (searchFuel g t (frm :: g.nbr forward frm)) t ∅
    (frm :: g.nbr forward frm)).2

/-- firstTwoEncountered (NaiveCoverageSet.cpp, lines 129-139): the first hop
of `t`-nodes from `frm`, together with the first hop of `t`-nodes from each
of those (the C++ accumulates the second round into a copy of the first). -/
def firstTwoEncountered (g : Graph) (forward : Bool) (frm : ℕ)
    (t : Finset ℕ) : Finset ℕ :=
  let r1 := oneHop g forward frm t
  r1 ∪ (ascList r1).foldr (fun i acc => oneHop g forward i t ∪ acc) ∅

/-- hasAmbiguousTriangle (NaiveCoverageSet.cpp, lines 180-223).  The sets Y1
and Y2 locate the entry-to-alpha and beta-to-exit legs; the triangle exists
when, excluding the instrumented nodes outside those legs, alpha still
reaches d, d still reaches beta, and alpha reaches beta avoiding d. -/
def hasAmbiguousTriangle (g : Graph) (alpha beta d e : ℕ)
    (X S : Finset ℕ) : Bool :=
  let Y1 := connectedExcluding g {e} {alpha} {d}
  let Y2 := connectedExcluding g {beta} (X.erase d) {d}
  if Y1 = ∅ ∨ Y2 = ∅ then false
  else
    let SmY := (S \ Y1) \ Y2
    if ¬ isConnectedExcluding g {alpha} {d} SmY then false
    else if ¬ isConnectedExcluding g {d} {beta} SmY then false
    else if ¬ isConnectedExcluding g {alpha} {beta} (insert d SmY) then false
    else true

/-- Alpha candidates computed by isCoverageSet for a desired node `d`
(NaiveCoverageSet.cpp, lines 53-59): the intersection of
connectedExcluding({e},{d},∅) with S ∪ {e}. -/
def thisAlphas (g : Graph) (S : Finset ℕ) (e d : ℕ) : Finset ℕ :=
  connectedExcluding g {e} {d} ∅ ∩ insert e S

/-- Beta candidates computed by isCoverageSet for a desired node `d`
(NaiveCoverageSet.cpp, lines 61-68): the intersection of
connectedExcluding({d}, S ∪ X, ∅) with S ∪ X. -/
def thisBetas (g : Graph) (S X : Finset ℕ) (d : ℕ) : Finset ℕ :=
  connectedExcluding g {d} (S ∪ X) ∅ ∩ (S ∪ X)

/-- isCoverageSet (NaiveCoverageSet.cpp, lines 38-84): S is accepted unless
some uninstrumented desired node d admits an ambiguous triangle over the
computed alpha and beta candidates.  The nested early-returning loops of the
C++ are the conjunction below. -/
def isCoverageSet (g : Graph) (S D : Finset ℕ) (e : ℕ) (X : Finset ℕ) : Bool :=
  (ascList D).all fun d =>
    if d ∈ S then true
    else
      (ascList (thisAlphas g S e d)).all fun alpha =>
        if d = alpha then true
        else (ascList (thisBetas g S X d)).all fun beta =>
          if d = beta then true
          else ! hasAmbiguousTriangle g alpha beta d e X S

/-- isCoverageSetClose (NaiveCoverageSet.cpp, lines 86-118): the cheap
variant restricting alpha and beta candidates to the first two hops around
each desired node. -/
def isCoverageSetClose (g : Graph) (S D : Finset ℕ) (e : ℕ)
    (X : Finset ℕ) : Bool :=
  (ascList D).all fun d =>
    if d ∈ S then true
    else
      (ascList (firstTwoEncountered g false d (insert e S))).all fun alpha =>
        if d = alpha then true
        else (ascList (firstTwoEncountered g true d (S ∪ X))).all fun beta =>
          if d = beta then true
          else ! hasAmbiguousTriangle g alpha beta d e X S

/-! Cost model and the greedy local optimizer
(CoverageOptimizationGraph.cpp, NaiveOptimizationGraph.cpp). -/

/-- fillInNodeCost (CoverageOptimizationGraph.cpp, lines 73-99): the cost of
a block is its frequency estimate scaled so that the entry frequency is 1,
computed as integer quotient plus fractional remainder exactly as the C++
does to limit precision loss.  Real arithmetic is modelled by rationals. -/
def nodeCost (freq : ℕ → ℕ) (e n : ℕ) : ℚ :=
  (freq n / freq e : ℕ) + ((freq n % freq e : ℕ) : ℚ) / (freq e : ℚ)

/-- Strict block ordering of BlockCostComparator
(CoverageOptimizationGraph.cpp, lines 43-64): descending cost, ties broken
by descending name. -/
def blockBefore (cost : ℕ → ℚ) (name : ℕ → String) (a b : ℕ) : Bool :=
  if cost a = cost b then decide (name b < name a) else decide (cost b < cost a)

/-- Insertion of a block into a list sorted by blockBefore. -/
def insertByCost (cost : ℕ → ℚ) (name : ℕ → String) (x : ℕ) :
    List ℕ → List ℕ
  | [] => [x]
  | y :: ys =>
    if blockBefore cost name x y then x :: y :: ys
    else y :: insertByCost cost name x ys

/-- sortBlocksByCost (CoverageOptimizationGraph.cpp, lines 66-71): the
blocks of a set listed in descending cost order with ties broken by
descending name (an insertion sort; with injective names the comparator is a
strict total order, so any comparison sort yields this unique list). -/
def sortBlocksByCost (cost : ℕ → ℚ) (name : ℕ → String)
    (blocks : Finset ℕ) : List ℕ :=
  (ascList blocks).foldr (insertByCost cost name) []

/-- One step of the greedy loop of locallyOptimal
(NaiveOptimizationGraph.cpp, lines 51-67): tentatively erase the block; put
it back when the close oracle refutes, or when the exact oracle refutes;
otherwise keep it removed. -/
def removeStep (g : Graph) (D : Finset ℕ) (e : ℕ) (X : Finset ℕ)
    (S : Finset ℕ) (i : ℕ) : Finset ℕ :=
  let S1 := S.erase i
  if ¬ isCoverageSetClose g S1 D e X then insert i S1
  else if ¬ isCoverageSet g S1 D e X then insert i S1
  else S1

/-- locallyOptimal (NaiveOptimizationGraph.cpp, lines 36-73): starting from
S = I, try to remove every block of I in descending cost order, keeping a
removal only when both oracles still accept.  An empty desired set returns
the empty set immediately. -/
def locallyOptimal (g : Graph) (cost : ℕ → ℚ) (name : ℕ → String) (e : ℕ)
    (I D X : Finset ℕ) : Finset ℕ :=
  if D = ∅ then ∅
  else (sortBlocksByCost cost name I).foldl (removeStep g D e X) I

/-! Dominator-tree optimizer (DominatorOptimizationGraph.cpp).  The
precomputed dominator tree the C++ receives from LLVM is modelled as the
node set and children map recAddToGraph copies out of it.  The
report_fatal_error calls are modelled by Except.error; lookups of nodes
outside the tree, which throw in the C++ (map::at) or abort
(getChildren), are modelled as errors where the control flow depends on
them and as empty child sets inside the Boolean helper dominates. -/

/-- Dominator tree as stored by DominatorOptimizationGraph: all tree nodes
and the dominator-children map. -/
structure DomTree where
  nodes : Finset ℕ
  children : ℕ → Finset ℕ

/-- Recursive descendant test dominates (DominatorOptimizationGraph.cpp,
lines 184-196): b is strictly dominated by a when it is a child of a or
dominated by one of the children of a.  Recursion is fuelled by tree depth. -/
def dominatesAux (t : DomTree) : ℕ → ℕ → ℕ → Bool
  | 0, _, _ => false
  | fuel + 1, a, b =>
    b ∈ t.children a
      || (ascList (t.children a)).any fun c => dominatesAux t fuel c b

/-- dominates with its canonical fuel (a well-formed dominator tree has
depth at most its number of nodes). -/
def dominates (t : DomTree) (a b : ℕ) : Bool :=
  dominatesAux t (t.nodes.card + 1) a b

/-- Worklist loop of exitWithout (DominatorOptimizationGraph.cpp, lines
102-114): depth-first from `node`; true as soon as a successor-less node is
found, or a crash point outside the dominance region of `node`; blocked nodes
are those of `without` (pre-inserted into visited). -/
def exitWithoutAux (g : Graph) (t : DomTree) (node : ℕ) (exits : Finset ℕ) :
    ℕ → Finset ℕ → List ℕ → Bool
  | 0, _, _ => false
  | _ + 1, _, [] => false
  | fuel + 1, visited, cur :: wl =>
    let visited' := insert cur visited
    if g.succs cur = [] then true
    else if cur ≠ node ∧ cur ∈ exits ∧ ¬ dominates t node cur then true
    else exitWithoutAux g t node exits fuel visited'
      (((g.succs cur).filter (fun s => s ∉ visited')).reverse ++ wl)

/-- exitWithout (DominatorOptimizationGraph.cpp, lines 92-116): does some
path from `node` bypassing `without` reach a successor-less block or a
non-dominated crash point?  The fuel covers the worst case of this stack
discipline (each node is expanded at most once per producer). -/
def exitWithout (g : Graph) (t : DomTree) (node : ℕ)
    (exits without : Finset ℕ) : Bool :=
  exitWithoutAux g t node exits (2 * (g.V.card + 2) * (g.degBound + 2))
    (insert node without) [node]

/-- Reachability pass of getOptimizedProbes (DominatorOptimizationGraph.cpp,
lines 235-253), folded over the reverse topological order: returns the
canCover and needInst sets. -/
def domPass1 (g : Graph) (t : DomTree) (canProbe exits : Finset ℕ)
    (order : List ℕ) : Finset ℕ × Finset ℕ :=
  order.foldl
    (fun st i =>
      let coveredChildren := (t.children i).filter (fun j => j ∈ st.1)
      let myNeedInst := exitWithout g t i exits coveredChildren
      let myCanCover := ¬ myNeedInst ∨ i ∈ canProbe
      (if myCanCover then insert i st.1 else st.1,
       if myNeedInst then insert i st.2 else st.2))
    (∅, ∅)

/-- cheapestChildren (DominatorOptimizationGraph.cpp, lines 153-182): drop
coverable children most-expensive-first as long as the remaining ones still
block every exit, skipping children that are already covered anyway. -/
def cheapestChildren (g : Graph) (t : DomTree) (cost : ℕ → ℚ)
    (name : ℕ → String) (node : ℕ) (canCover willCover exits : Finset ℕ) :
    Except String (Finset ℕ) :=
  let ccc := (t.children node).filter (fun j => j ∈ canCover)
  if exitWithout g t node exits ccc then
    .error ("cheapestChildren: node cannot be covered by children")
  else
    .ok ((sortBlocksByCost cost name ccc).foldl
      (fun acc child =>
        if child ∈ willCover then acc
        else if ¬ exitWithout g t node exits (acc.erase child) then
          acc.erase child
        else acc)
      ccc)

/-- coverNode (DominatorOptimizationGraph.cpp, lines 118-151): instrument
the node itself when its coverable children cannot cover it (a fatal
assertion if it is not instrumentable), otherwise recursively cover the
cheapest sufficient set of children; the node is marked covered either way.
The state is the (willInst, willCover) pair the C++ mutates through
pointers. -/
def coverNode (g : Graph) (t : DomTree) (cost : ℕ → ℚ) (name : ℕ → String)
    (canCover canInst exits : Finset ℕ) :
    ℕ → ℕ → Finset ℕ × Finset ℕ → Except String (Finset ℕ × Finset ℕ)
  | 0, _, _ => .error ("coverNode: recursion exceeded tree depth")
  | fuel + 1, node, st =>
    let ccc := (t.children node).filter (fun j => j ∈ canCover)
    if exitWithout g t node exits ccc then
      if node ∉ canInst then
        .error ("coverNode: expectation that node could be instrumented was false")
      else .ok (insert node st.1, insert node st.2)
    else do
      let cheap ← cheapestChildren g t cost name node canCover st.2 exits
      let st' ← (ascList cheap).foldlM
        (fun st' c => coverNode g t cost name canCover canInst exits fuel c st')
        st
      .ok (st'.1, insert node st'.2)

/-- One step of the commit pass (the body of the second loop of
getOptimizedProbes, DominatorOptimizationGraph.cpp, lines 268-293). -/
def domPass2Step (g : Graph) (t : DomTree) (cost : ℕ → ℚ) (name : ℕ → String)
    (canProbe wantData exits canCover needInst : Finset ℕ)
    (st : Finset ℕ × Finset ℕ) (i : ℕ) :
    Except String (Finset ℕ × Finset ℕ) :=
  let willCoverChildren := (t.children i).filter (fun j => j ∈ st.2)
  let wC :=
    if ¬ exitWithout g t i exits willCoverChildren then insert i st.2
    else st.2
  if i ∉ wantData then .ok (st.1, wC)
  else if i ∈ needInst ∧ i ∈ canProbe then
    .ok (insert i st.1, insert i wC)
  else if i ∉ needInst then do
    let st' ← coverNode g t cost name canCover canProbe exits
      (t.nodes.card + 1) i (st.1, wC)
    .ok (st'.1, insert i st'.2)
  else .ok (st.1, wC)

/-- Commit pass of getOptimizedProbes (DominatorOptimizationGraph.cpp,
lines 263-293), folded over the reverse topological order. -/
def domPass2 (g : Graph) (t : DomTree) (cost : ℕ → ℚ) (name : ℕ → String)
    (canProbe wantData exits canCover needInst : Finset ℕ)
    (order : List ℕ) : Except String (Finset ℕ × Finset ℕ) :=
  order.foldlM
    (domPass2Step g t cost name canProbe wantData exits canCover needInst)
    (∅, ∅)

/-- Recursive step of the reverse topological sort (recReverseTopo,
DominatorOptimizationGraph.cpp, lines 64-90), threading the order list, the
temporary marks and the permanent marks. -/
def recReverseTopo (t : DomTree) :
    ℕ → ℕ → List ℕ × Finset ℕ × Finset ℕ →
    Except String (List ℕ × Finset ℕ × Finset ℕ)
  | 0, _, _ => .error ("recReverseTopo: recursion exceeded tree size")
  | fuel + 1, node, st =>
    if node ∈ st.2.2 then .ok st
    else if node ∈ st.2.1 then
      .error ("a non-DAG was constructed for the dominator tree")
    else if node ∉ t.nodes then
      .error ("topological sort encountered a non-existant node")
    else do
      let st' ← (ascList (t.children node)).foldlM
        (fun st' c => recReverseTopo t fuel c st')
        (st.1, insert node st.2.1, st.2.2)
      if node ∈ st'.2.2 then
        .error ("node was processed twice in topological order")
      else .ok (st'.1 ++ [node], st'.2.1, insert node st'.2.2)

/-- reverseTopo (DominatorOptimizationGraph.cpp, lines 52-62): all tree
nodes in a reverse topological (children first) order. -/
def reverseTopo (t : DomTree) : Except String (List ℕ) := do
  let st ← (ascList t.nodes).foldlM
    (fun st n => recReverseTopo t (t.nodes.card + 1) n st) ([], ∅, ∅)
  .ok st.1

/-- getOptimizedProbes of the dominator optimizer
(DominatorOptimizationGraph.cpp, lines 229-304): reachability pass, the
conservative guard returning canProbe unchanged when some desired node
cannot be covered, then the commit pass and the final coverage check. -/
def domGetOptimizedProbes (g : Graph) (t : DomTree) (cost : ℕ → ℚ)
    (name : ℕ → String) (canProbe wantData crashPoints : Finset ℕ) :
    Except String (Finset ℕ) := do
  let order ← reverseTopo t
  let p1 := domPass1 g t canProbe crashPoints order
  if wantData \ p1.1 ≠ ∅ then .ok canProbe
  else do
    let st ← domPass2 g t cost name canProbe wantData crashPoints p1.1 p1.2 order
    if wantData \ st.2 ≠ ∅ then
      .error ("did not coverage what we expected to cover in dominator optimization")
    else .ok st.1

/-! Exact optimizer (LEMONUtils.cpp, LEMONCoverageSet.cpp).  The external
collaborators - the Gurobi integer-program solver and the LEMON
Dijkstra-based per-node triangle search - are inputs of the model: `solve`
maps the current constraint list to the set of variables it sets to 1 (the
C++ reads the result back per canProbe variable, so the returned probe set
is intersected with canProbe exactly as GRBIndexToLemonMap only covers
canProbe), and `findTri` stands for the body of the per-desired-node loop of
getTriangles (the frontier walk plus getAmbiguousTriangles), returning the
symmetric-difference node set of each triangle found, which is all
addConsToMIP consumes.  The iteration structure around them follows
LEMONsolver::optimize literally. -/

/-- Node-cost map of the LEMON solver (LEMONUtils.cpp, lines 52-71): the
graph cost, with the defensive floor 0.00001 substituted for a computed
zero cost. -/
def lemonNodeCost (freq : ℕ → ℕ) (e n : ℕ) : ℚ :=
  if nodeCost freq e n = 0 then 1 / 100000 else nodeCost freq e n

/-- getTriangles (LEMONCoverageSet.cpp, lines 486-580): one search per
desired node not already chosen by the current solution, gathering the
triangles each search finds; the per-node search body is the `findTri`
input.  Its last four arguments are the maxDistance, startDistance,
maxTriangles and maxTrianglesPerDistance parameters. -/
def getTriangles (findTri : Finset ℕ → ℕ → ℕ → ℕ → ℕ → ℕ → List (Finset ℕ))
    (sol D : Finset ℕ) (maxDist startDist maxTri maxTriPer : ℕ) :
    List (Finset ℕ) :=
  (ascList D).foldr
    (fun d acc =>
      if d ∈ sol then acc
      else findTri sol d maxDist startDist maxTri maxTriPer ++ acc)
    []

/-- addConsToMIP (LEMONUtils.cpp, lines 398-426): each triangle contributes
the constraint that at least one instrumentable node of its symmetric
difference be selected; an empty intersection is the fatal infeasible
case. -/
def addConsToMIP (tris : List (Finset ℕ)) (I : Finset ℕ)
    (cons : List (Finset ℕ)) : Except String (List (Finset ℕ)) :=
  tris.foldlM
    (fun acc tri =>
      if tri ∩ I = ∅ then
        .error ("internal error: Problem is infeasible")
      else .ok (acc ++ [tri ∩ I]))
    cons

/-- Triangle search of one iteration of the cutting-plane loop
(LEMONUtils.cpp, lines 303-321): depths 1 to 7 with at most 7 triangles per
depth, falling back to an unbounded search with 1 triangle per node and
depth. -/
def lemonFindNew (findTri : Finset ℕ → ℕ → ℕ → ℕ → ℕ → ℕ → List (Finset ℕ))
    (D sol : Finset ℕ) : List (Finset ℕ) :=
  let atDepth : ℕ → List (Finset ℕ) := fun depth =>
    getTriangles findTri sol D depth depth 0 7
  let stepped := ([1, 2, 3, 4, 5, 6, 7].map atDepth).foldl
    (fun acc t => if acc = [] then t else acc) []
  if stepped = [] then getTriangles findTri sol D 0 0 0 1 else stepped

/-- Cutting-plane loop of LEMONsolver::optimize (LEMONUtils.cpp, lines
244-347): solve, search for violated triangles, add their constraints and
repeat; when no triangle is found the current solution is final.  Running
out of iterations leaves `optimal` false, so the empty probe set is
returned, as in the C++. -/
def lemonLoop (solve : List (Finset ℕ) → Finset ℕ)
    (findTri : Finset ℕ → ℕ → ℕ → ℕ → ℕ → ℕ → List (Finset ℕ))
    (I D : Finset ℕ) :
    ℕ → List (Finset ℕ) → Except String (Finset ℕ)
  | 0, _ => .ok ∅
  | fuel + 1, cons =>
    let sol := I ∩ solve cons
    let t := lemonFindNew findTri D sol
    if t = [] then .ok sol
    else do
      let cons' ← addConsToMIP t I cons
      lemonLoop solve findTri I D fuel cons'

/-- LEMONsolver::optimize (LEMONUtils.cpp, lines 133-374): seed the model
with the triangles of the uninstrumented graph, then run the cutting-plane
loop for at most MAX_ITERATIONS = 200 rounds. -/
def lemonOptimize (solve : List (Finset ℕ) → Finset ℕ)
    (findTri : Finset ℕ → ℕ → ℕ → ℕ → ℕ → ℕ → List (Finset ℕ))
    (I D : Finset ℕ) : Except String (Finset ℕ) := do
  let cons ← addConsToMIP (getTriangles findTri ∅ D 0 0 0 0) I []
  lemonLoop solve findTri I D 200 cons

/-- Decidable equality for Except values, so concrete optimizer runs can be
checked by decide. -/
instance {e a : Type} [DecidableEq e] [DecidableEq a] :
    DecidableEq (Except e a) := fun x y =>
  match x, y with
  | .error e1, .error e2 =>
    if h : e1 = e2 then isTrue (by rw [h])
    else isFalse (by intro hc; cases hc; exact h rfl)
  | .error _, .ok _ => isFalse (by intro hc; cases hc)
  | .ok _, .error _ => isFalse (by intro hc; cases hc)
  | .ok a1, .ok a2 =>
    if h : a1 = a2 then isTrue (by rw [h])
    else isFalse (by intro hc; cases hc; exact h rfl)

/-! Concrete instances used by witnesses and counterexamples. -/

/-- Two-node graph with the cycle 0 -> 1 -> 0 (entry 0). -/
def gTwo : Graph := ⟨{0, 1}, fun n => if n = 0 then [1] else if n = 1 then [0] else []⟩

/-- Dominator tree of gTwo: 0 dominates 1. -/
def tTwo : DomTree := ⟨{0, 1}, fun n => if n = 0 then {1} else ∅⟩

/-- Straight-line graph 0 -> 1. -/
def gLine : Graph := ⟨{0, 1}, fun n => if n = 0 then [1] else []⟩

/-- Dominator tree of gLine. -/
def tLine : DomTree := ⟨{0, 1}, fun n => if n = 0 then {1} else ∅⟩

/-- Three-node chain 0 -> 1 -> 2. -/
def gChain3 : Graph := ⟨{0, 1, 2}, fun n => if n = 0 then [1] else if n = 1 then [2] else []⟩

/-- Five-node chain 0 -> 1 -> 2 -> 3 -> 4. -/
def gChain : Graph :=
  ⟨{0, 1, 2, 3, 4}, fun n => if n = 4 then [] else if n ∈ [0, 1, 2, 3] then [n + 1] else []⟩

/-- Diamond graph 0 -> {1, 2} -> 3 (entry 0, exit 3). -/
def gDiamond : Graph :=
  ⟨{0, 1, 2, 3}, fun n => if n = 0 then [1, 2] else if n = 1 then [3] else if n = 2 then [3] else []⟩

/-- Back-edge loop of spec scenario 3: 0 -> 1 -> 2, 2 -> 1 (back edge),
2 -> 3 (exit). -/
def gLoop : Graph :=
  ⟨{0, 1, 2, 3}, fun n => if n = 0 then [1] else if n = 1 then [2] else if n = 2 then [1, 3] else []⟩

/-- Unit cost function for examples. -/
def exCost : ℕ → ℚ := fun _ => 1

/-- Example block names (one letter per block, distinct on small graphs). -/
def exName : ℕ → String := fun n =>
  if n = 0 then "a" else if n = 1 then "b" else if n = 2 then "c"
  else if n = 3 then "d" else "e"

/-- Example cost function with pairwise distinct, descending costs. -/
def exCostD : ℕ → ℚ := fun n => ((8 - n : ℕ) : ℚ)

/-- Example block-frequency estimate with a zero-frequency block (the
situation the LEMONsolver constructor's comment attributes to blocks ending
in a call to exit): entry frequency 4, node 1 frequency 0. -/
def exFreq : ℕ → ℕ := fun n => if n = 0 then 4 else 0

/-- Alpha set described by the specification text for claim C2: the members
of S ∪ {e} that can reach d without passing through any other node of
S ∪ {e}.  Built from the words of the spec (its "connected-excluding
reachability query" with the interior instrumented nodes excluded), to be
compared with thisAlphas, which the code computes. -/
def specAlphas (g : Graph) (S : Finset ℕ) (e d : ℕ) : Finset ℕ :=
  (insert e S).filter fun a =>
    a = d ∨ isConnectedExcluding g {a} {d} (((insert e S).erase a).erase d)

/-- Descending block order stated by the spec for the greedy pass:
strictly larger cost first, ties by strictly larger name. -/
def DescOrder (cost : ℕ → ℚ) (name : ℕ → String) (a b : ℕ) : Prop :=
  cost b < cost a ∨ (cost a = cost b ∧ name b < name a)

end CsiCov

namespace CsiCov

/-! Basic facts about the graph model. -/

theorem mem_succs_V {g : Graph} {n m : ℕ} (h : m ∈ g.succs n) : m ∈ g.V := by
  simpa [Graph.succs] using (List.mem_filter.mp h).2

theorem mem_ascList {s : Finset ℕ} {m : ℕ} : m ∈ ascList s ↔ m ∈ s := by
  unfold ascList
  simp only [List.mem_filter, List.mem_range, decide_eq_true_eq]
  constructor
  · rintro ⟨_, h⟩
    exact h
  · intro h
    refine ⟨?_, h⟩
    have hle := @Finset.le_sup ℕ ℕ _ _ s id m h
    simp only [id] at hle
    omega

theorem nodup_ascList {s : Finset ℕ} : (ascList s).Nodup :=
  (List.nodup_range _).filter _

theorem length_ascList {s : Finset ℕ} : (ascList s).length = s.card := by
  have htf : (ascList s).toFinset = s := by
    ext x
    simp [List.mem_toFinset, mem_ascList]
  have hc := List.toFinset_card_of_nodup (@nodup_ascList s)
  rw [htf] at hc
  exact hc.symm

theorem mem_preds_iff {g : Graph} {n m : ℕ} :
    m ∈ g.preds n ↔ m ∈ g.V ∧ n ∈ g.succs m := by
  constructor
  · intro h
    have h' := List.mem_filter.mp h
    exact ⟨mem_ascList.mp h'.1, by simpa using h'.2⟩
  · intro h
    exact List.mem_filter.mpr ⟨mem_ascList.mpr h.1, by simpa using h.2⟩

theorem mem_preds_V {g : Graph} {n m : ℕ} (h : m ∈ g.preds n) : m ∈ g.V :=
  (mem_preds_iff.mp h).1

theorem mem_nbr_V {g : Graph} {fwd : Bool} {n m : ℕ}
    (h : m ∈ g.nbr fwd n) : m ∈ g.V := by
  cases fwd <;> simp only [Graph.nbr] at h
  · exact mem_preds_V h
  · exact mem_succs_V h

theorem succs_length_le {g : Graph} {n : ℕ} (h : n ∈ g.V) :
    (g.succs n).length ≤ g.degBound :=
  le_max_of_le_left (@Finset.le_sup ℕ ℕ _ _ g.V (fun m => (g.succs m).length) n h)

theorem preds_length_le (g : Graph) (n : ℕ) :
    (g.preds n).length ≤ g.degBound := by
  refine le_max_of_le_right ?_
  calc (g.preds n).length ≤ (ascList g.V).length :=
        List.length_filter_le _ _
    _ = g.V.card := length_ascList

theorem nbr_length_le {g : Graph} {fwd : Bool} {n : ℕ} (h : n ∈ g.V) :
    (g.nbr fwd n).length ≤ g.degBound := by
  cases fwd <;> simp only [Graph.nbr]
  · exact preds_length_le g n
  · exact succs_length_le h

theorem mem_foldr_append {nbr : ℕ → List ℕ} {l : List ℕ} {w : ℕ} :
    w ∈ l.foldr (fun i acc => nbr i ++ acc) [] ↔ ∃ a ∈ l, w ∈ nbr a := by
  induction l with
  | nil => simp
  | cons a l ih => simp [List.foldr_cons, ih]

theorem mem_seedWl {nbr : ℕ → List ℕ} {s : Finset ℕ} {w : ℕ} :
    w ∈ seedWl nbr s ↔ ∃ a ∈ s, w ∈ nbr a := by
  unfold seedWl
  rw [mem_foldr_append]
  simp [mem_ascList]

/-! Worklist-search stabilization: with fuel at least searchFuel, the value
of searchAux does not depend on the fuel.  This is the termination argument
for the C++ while-loops: searchFuel bounds the number of iterations that
can still be performed (each pop consumes one unit; each visit of a fresh
graph node additionally provides for the neighbours it enqueues). -/

theorem searchFuel_skip (g : Graph) (visited : Finset ℕ) (n : ℕ)
    (wl : List ℕ) :
    searchFuel g visited wl + 1 = searchFuel g visited (n :: wl) := by
  unfold searchFuel
  rw [List.length_cons]
  omega

theorem card_sdiff_insert {g : Graph} {visited : Finset ℕ} {n : ℕ}
    (hV : n ∈ g.V) (hnv : n ∉ visited) :
    (g.V \ insert n visited).card + 1 = (g.V \ visited).card := by
  have hmem : n ∈ g.V \ visited := Finset.mem_sdiff.mpr ⟨hV, hnv⟩
  have : g.V \ insert n visited = (g.V \ visited).erase n := by
    ext x
    simp [Finset.mem_sdiff, Finset.mem_erase, Finset.mem_insert]
    tauto
  rw [this, Finset.card_erase_of_mem hmem]
  have hpos : 0 < (g.V \ visited).card := Finset.card_pos.mpr ⟨n, hmem⟩
  omega

theorem searchFuel_expand {g : Graph} {visited : Finset ℕ} {n : ℕ}
    {wl ext : List ℕ} (hV : n ∈ g.V) (hnv : n ∉ visited)
    (hdeg : ext.length ≤ g.degBound) :
    searchFuel g (insert n visited) (wl ++ ext) + 2 ≤
      searchFuel g visited (n :: wl) := by
  have hc := card_sdiff_insert hV hnv
  unfold searchFuel at *
  rw [List.length_append, List.length_cons]
  set c := (g.V \ insert n visited).card with hcdef
  rw [← hc]
  have hms : (c + 1) * (g.degBound + 1) = c * (g.degBound + 1) + (g.degBound + 1) := by
    ring
  rw [hms]
  omega

theorem searchAux_congr {g : Graph} {nbr : ℕ → List ℕ} {excl : Finset ℕ}
    (hnbr : ∀ n m, m ∈ nbr n → m ∈ g.V)
    (hdeg : ∀ n ∈ g.V, (nbr n).length ≤ g.degBound) :
    ∀ (f1 : ℕ) (f2 : ℕ) (visited : Finset ℕ) (wl : List ℕ),
      (∀ n ∈ wl, n ∈ g.V) →
      searchFuel g visited wl ≤ f1 → searchFuel g visited wl ≤ f2 →
      searchAux nbr excl f1 visited wl = searchAux nbr excl f2 visited wl := by
  intro f1
  induction f1 with
  | zero =>
    intro f2 visited wl hwl h1 h2
    match wl with
    | [] => cases f2 <;> rfl
    | n :: wl =>
      exfalso
      have := searchFuel_skip g visited n wl
      omega
  | succ f1 ih =>
    intro f2 visited wl hwl h1 h2
    match wl with
    | [] => cases f2 <;> rfl
    | n :: wl =>
      have hlen : 1 ≤ searchFuel g visited (n :: wl) := by
        have := searchFuel_skip g visited n wl
        omega
      match f2 with
      | 0 => omega
      | f2 + 1 =>
        simp only [searchAux]
        by_cases hcase : n ∈ visited ∨ n ∈ excl
        · rw [if_pos hcase, if_pos hcase]
          have hf := searchFuel_skip g visited n wl
          exact ih f2 visited wl (fun m hm => hwl m (List.mem_cons_of_mem n hm))
            (by omega) (by omega)
        · rw [if_neg hcase, if_neg hcase]
          have hV : n ∈ g.V := hwl n (List.mem_cons_self _ _)
          have hnv : n ∉ visited := fun h => hcase (Or.inl h)
          have hf := @searchFuel_expand g visited n wl (nbr n)
            hV hnv (hdeg n hV)
          refine ih f2 (insert n visited) (wl ++ nbr n) ?_ (by omega) (by omega)
          intro m hm
          rcases List.mem_append.mp hm with hm | hm
          · exact hwl m (List.mem_cons_of_mem n hm)
          · exact hnbr n m hm

/-- Monotone growth: the search only adds to the visited set. -/
theorem searchAux_mono {nbr : ℕ → List ℕ} {excl : Finset ℕ} :
    ∀ (fuel : ℕ) (visited : Finset ℕ) (wl : List ℕ),
      visited ⊆ searchAux nbr excl fuel visited wl := by
  intro fuel
  induction fuel with
  | zero => intro visited wl; exact Finset.Subset.refl _
  | succ fuel ih =>
    intro visited wl
    match wl with
    | [] => exact Finset.Subset.refl _
    | n :: wl =>
      simp only [searchAux]
      by_cases hcase : n ∈ visited ∨ n ∈ excl
      · rw [if_pos hcase]; exact ih visited wl
      · rw [if_neg hcase]
        exact (Finset.subset_insert n visited).trans (ih _ _)

/-- Soundness: every node the search adds is connected to a worklist entry
by steps avoiding the excluded set. -/
theorem searchAux_sound {nbr : ℕ → List ℕ} {excl : Finset ℕ} :
    ∀ (fuel : ℕ) (visited : Finset ℕ) (wl : List ℕ) (x : ℕ),
      x ∈ searchAux nbr excl fuel visited wl →
      x ∈ visited ∨ ∃ w ∈ wl, w ∉ excl ∧
        Relation.ReflTransGen (SRel nbr excl) w x := by
  intro fuel
  induction fuel with
  | zero => intro visited wl x hx; exact Or.inl hx
  | succ fuel ih =>
    intro visited wl x hx
    match wl with
    | [] => exact Or.inl hx
    | n :: wl =>
      simp only [searchAux] at hx
      by_cases hcase : n ∈ visited ∨ n ∈ excl
      · rw [if_pos hcase] at hx
        rcases ih visited wl x hx with h | ⟨w, hw, hwe, hpath⟩
        · exact Or.inl h
        · exact Or.inr ⟨w, List.mem_cons_of_mem n hw, hwe, hpath⟩
      · rw [if_neg hcase] at hx
        have hne : n ∉ excl := fun h => hcase (Or.inr h)
        rcases ih _ _ x hx with h | ⟨w, hw, hwe, hpath⟩
        · rcases Finset.mem_insert.mp h with h | h
          · exact Or.inr ⟨n, (List.mem_cons_self _ _), hne, h ▸ Relation.ReflTransGen.refl⟩
          · exact Or.inl h
        · rcases List.mem_append.mp hw with hw | hw
          · exact Or.inr ⟨w, List.mem_cons_of_mem n hw, hwe, hpath⟩
          · exact Or.inr ⟨n, (List.mem_cons_self _ _), hne,
              Relation.ReflTransGen.head ⟨hw, hwe⟩ hpath⟩

/-- Completeness: with enough fuel, every non-excluded worklist entry is
visited, and the result is closed under non-excluded neighbour steps. -/
theorem searchAux_complete {g : Graph} {nbr : ℕ → List ℕ} {excl : Finset ℕ}
    (hnbr : ∀ n m, m ∈ nbr n → m ∈ g.V)
    (hdeg : ∀ n ∈ g.V, (nbr n).length ≤ g.degBound) :
    ∀ (fuel : ℕ) (visited : Finset ℕ) (wl : List ℕ),
      (∀ n ∈ wl, n ∈ g.V) →
      searchFuel g visited wl ≤ fuel →
      (∀ v ∈ visited, ∀ s ∈ nbr v, s ∉ excl → s ∈ visited ∨ s ∈ wl) →
      (∀ w ∈ wl, w ∉ excl → w ∈ searchAux nbr excl fuel visited wl) ∧
      (∀ v ∈ searchAux nbr excl fuel visited wl, ∀ s ∈ nbr v, s ∉ excl →
        s ∈ searchAux nbr excl fuel visited wl) := by
  intro fuel
  induction fuel with
  | zero =>
    intro visited wl hwl hfuel hseed
    match wl with
    | [] =>
      refine ⟨by simp, ?_⟩
      intro v hv s hs hse
      rcases hseed v hv s hs hse with h | h
      · exact h
      · simp at h
    | n :: wl =>
      exfalso
      have := searchFuel_skip g visited n wl
      omega
  | succ fuel ih =>
    intro visited wl hwl hfuel hseed
    match wl with
    | [] =>
      refine ⟨by simp, ?_⟩
      intro v hv s hs hse
      rcases hseed v hv s hs hse with h | h
      · exact h
      · simp at h
    | n :: wl =>
      simp only [searchAux]
      by_cases hcase : n ∈ visited ∨ n ∈ excl
      · rw [if_pos hcase]
        have hf := searchFuel_skip g visited n wl
        have hseed' : ∀ v ∈ visited, ∀ s ∈ nbr v, s ∉ excl →
            s ∈ visited ∨ s ∈ wl := by
          intro v hv s hs hse
          rcases hseed v hv s hs hse with h | h
          · exact Or.inl h
          · rcases List.mem_cons.mp h with h | h
            · subst h
              rcases hcase with h' | h'
              · exact Or.inl h'
              · exact absurd h' hse
            · exact Or.inr h
        have hmain := ih visited wl
          (fun m hm => hwl m (List.mem_cons_of_mem n hm)) (by omega) hseed'
        refine ⟨?_, hmain.2⟩
        intro w hw hwe
        rcases List.mem_cons.mp hw with hw | hw
        · subst hw
          have hnv : w ∈ visited := by
            rcases hcase with h' | h'
            · exact h'
            · exact absurd h' hwe
          exact searchAux_mono fuel visited wl hnv
        · exact hmain.1 w hw hwe
      · rw [if_neg hcase]
        have hV : n ∈ g.V := hwl n (List.mem_cons_self _ _)
        have hnv : n ∉ visited := fun h => hcase (Or.inl h)
        have hf := @searchFuel_expand g visited n wl (nbr n)
          hV hnv (hdeg n hV)
        have hwl' : ∀ m ∈ wl ++ nbr n, m ∈ g.V := by
          intro m hm
          rcases List.mem_append.mp hm with hm | hm
          · exact hwl m (List.mem_cons_of_mem n hm)
          · exact hnbr n m hm
        have hseed' : ∀ v ∈ insert n visited, ∀ s ∈ nbr v, s ∉ excl →
            s ∈ insert n visited ∨ s ∈ wl ++ nbr n := by
          intro v hv s hs hse
          rcases Finset.mem_insert.mp hv with hv | hv
          · subst hv
            exact Or.inr (List.mem_append.mpr (Or.inr hs))
          · rcases hseed v hv s hs hse with h | h
            · exact Or.inl (Finset.mem_insert_of_mem h)
            · rcases List.mem_cons.mp h with h | h
              · exact Or.inl (h ▸ Finset.mem_insert_self n visited)
              · exact Or.inr (List.mem_append.mpr (Or.inl h))
        have hmain := ih (insert n visited) (wl ++ nbr n) hwl' (by omega) hseed'
        refine ⟨?_, hmain.2⟩
        intro w hw hwe
        rcases List.mem_cons.mp hw with hw | hw
        · subst hw
          exact searchAux_mono fuel _ _ (Finset.mem_insert_self w visited)
        · exact hmain.1 w (List.mem_append.mpr (Or.inl hw)) hwe

/-- A set closed under non-excluded steps absorbs whole step chains. -/
theorem rtg_closed {nbr : ℕ → List ℕ} {excl R : Finset ℕ}
    (hcl : ∀ v ∈ R, ∀ m ∈ nbr v, m ∉ excl → m ∈ R) {w x : ℕ}
    (hw : w ∈ R) (hpath : Relation.ReflTransGen (SRel nbr excl) w x) :
    x ∈ R := by
  induction hpath with
  | refl => exact hw
  | tail _ hstep ih => exact hcl _ ih _ hstep.1 hstep.2

/-- The last node of a nonempty avoiding chain is itself not excluded. -/
theorem rtg_last_not_excl {nbr : ℕ → List ℕ} {excl : Finset ℕ} {w x : ℕ}
    (hpath : Relation.ReflTransGen (SRel nbr excl) w x) (hw : w ∉ excl) :
    x ∉ excl := by
  induction hpath with
  | refl => exact hw
  | tail _ hstep _ => exact hstep.2

/-- Avoiding steps are graph edges. -/
theorem transGen_srel_reach {g : Graph} {excl : Finset ℕ} {a x : ℕ}
    (h : Relation.TransGen (SRel g.succs excl) a x) : Reach g a x :=
  Relation.TransGen.mono (fun _ _ hr => hr.1) h

/-- With the empty excluded set, avoiding forward chains are exactly
paths. -/
theorem transGen_srel_empty {g : Graph} {a x : ℕ} :
    Relation.TransGen (SRel g.succs ∅) a x ↔ Reach g a x := by
  constructor
  · exact transGen_srel_reach
  · intro h
    exact Relation.TransGen.mono (fun _ _ hr => ⟨hr, by simp⟩) h

/-- Backward avoiding chains, read in the edge direction. -/
theorem transGen_srel_preds_reach {g : Graph} {excl : Finset ℕ} {b x : ℕ}
    (h : Relation.TransGen (SRel g.preds excl) b x) : Reach g x b := by
  induction h with
  | single hstep =>
    exact Relation.TransGen.single (mem_preds_iff.mp hstep.1).2
  | tail _ hstep ih =>
    exact Relation.TransGen.head (mem_preds_iff.mp hstep.1).2 ih

/-- A path into `b` from a graph node is a backward avoiding chain when
nothing is excluded. -/
theorem reach_transGen_srel_preds {g : Graph} {b x : ℕ} (hx : x ∈ g.V)
    (h : Reach g x b) : Relation.TransGen (SRel g.preds ∅) b x := by
  induction h using Relation.TransGen.head_induction_on with
  | base hstep =>
    exact Relation.TransGen.single ⟨mem_preds_iff.mpr ⟨hx, hstep⟩, by simp⟩
  | ih hstep _ ih =>
    rename_i a c _
    have hc : c ∈ g.V := mem_succs_V hstep
    exact (ih hc).tail ⟨mem_preds_iff.mpr ⟨hx, hstep⟩, by simp⟩

/-- Membership in a search half of connectedExcluding: the start set plus
everything connected to it by a chain avoiding the excluded set. -/
theorem mem_visitedHalf {g : Graph} {fwd : Bool} {s excl : Finset ℕ} {x : ℕ} :
    x ∈ visitedHalf g fwd s excl ↔
      x ∈ s ∨ ∃ a ∈ s, Relation.TransGen (SRel (g.nbr fwd) excl) a x := by
  have hnbr : ∀ n m, m ∈ g.nbr fwd n → m ∈ g.V := fun n m h => mem_nbr_V h
  have hdeg : ∀ n ∈ g.V, (g.nbr fwd n).length ≤ g.degBound :=
    fun n hn => nbr_length_le hn
  have hwl : ∀ n ∈ seedWl (g.nbr fwd) s, n ∈ g.V := by
    intro n hn
    rcases mem_seedWl.mp hn with ⟨a, _, ha⟩
    exact mem_nbr_V ha
  have hseed : ∀ v ∈ s, ∀ m ∈ g.nbr fwd v, m ∉ excl →
      m ∈ s ∨ m ∈ seedWl (g.nbr fwd) s :=
    fun v hv m hm _ => Or.inr (mem_seedWl.mpr ⟨v, hv, hm⟩)
  have hcomp := @searchAux_complete g (g.nbr fwd) excl hnbr hdeg
    (searchFuel g s (seedWl (g.nbr fwd) s)) s (seedWl (g.nbr fwd) s)
    hwl le_rfl hseed
  constructor
  · intro hx
    rcases searchAux_sound _ _ _ _ hx with hx | ⟨w, hw, hwe, hpath⟩
    · exact Or.inl hx
    · rcases mem_seedWl.mp hw with ⟨a, ha, haw⟩
      exact Or.inr ⟨a, ha, Relation.TransGen.head' ⟨haw, hwe⟩ hpath⟩
  · intro hx
    rcases hx with hx | ⟨a, ha, hpath⟩
    · exact searchAux_mono _ _ _ hx
    · rcases (Relation.TransGen.head'_iff).mp hpath with ⟨c, hac, hcx⟩
      have hc : c ∈ visitedHalf g fwd s excl :=
        hcomp.1 c (mem_seedWl.mpr ⟨a, ha, hac.1⟩) hac.2
      exact rtg_closed hcomp.2 hc hcx

/-- Membership in connectedExcluding, stated through the two halves. -/
theorem mem_connectedExcluding {g : Graph} {f t excl : Finset ℕ} {x : ℕ} :
    x ∈ connectedExcluding g f t excl ↔
      (x ∈ f ∨ ∃ a ∈ f, Relation.TransGen (SRel g.succs excl) a x) ∧
      (x ∈ t ∨ ∃ b ∈ t, Relation.TransGen (SRel g.preds excl) b x) := by
  unfold connectedExcluding
  rw [Finset.mem_inter, mem_visitedHalf, mem_visitedHalf]
  simp [Graph.nbr]

/-- Soundness of the early-returning search of isConnectedExcluding. -/
theorem connAux_sound {nbr : ℕ → List ℕ} {t excl : Finset ℕ} :
    ∀ (fuel : ℕ) (visited : Finset ℕ) (wl : List ℕ),
      connAux nbr t excl fuel visited wl = true →
      ∃ x ∈ t, x ∉ visited ∧ ∃ w ∈ wl, w ∉ excl ∧
        Relation.ReflTransGen (SRel nbr excl) w x := by
  intro fuel
  induction fuel with
  | zero => intro visited wl h; simp [connAux] at h
  | succ fuel ih =>
    intro visited wl h
    match wl with
    | [] => simp [connAux] at h
    | n :: wl =>
      simp only [connAux] at h
      by_cases hcase : n ∈ visited ∨ n ∈ excl
      · rw [if_pos hcase] at h
        rcases ih visited wl h with ⟨x, hx, hxv, w, hw, hwe, hpath⟩
        exact ⟨x, hx, hxv, w, List.mem_cons_of_mem n hw, hwe, hpath⟩
      · rw [if_neg hcase] at h
        have hne : n ∉ excl := fun hn => hcase (Or.inr hn)
        have hnv : n ∉ visited := fun hn => hcase (Or.inl hn)
        by_cases ht : n ∈ t
        · exact ⟨n, ht, hnv, n, (List.mem_cons_self _ _), hne,
            Relation.ReflTransGen.refl⟩
        · rw [if_neg ht] at h
          rcases ih _ _ h with ⟨x, hx, hxv, w, hw, hwe, hpath⟩
          have hxv' : x ∉ visited := fun hc =>
            hxv (Finset.mem_insert_of_mem hc)
          rcases List.mem_append.mp hw with hw | hw
          · exact ⟨x, hx, hxv', w, List.mem_cons_of_mem n hw, hwe, hpath⟩
          · exact ⟨x, hx, hxv', n, (List.mem_cons_self _ _), hne,
              Relation.ReflTransGen.head ⟨hw, hwe⟩ hpath⟩

/-- A chain leaving the visited region passes through the worklist. -/
theorem escape_lemma {nbr : ℕ → List ℕ} {excl visited : Finset ℕ}
    {wl : List ℕ}
    (hseed : ∀ v ∈ visited, ∀ m ∈ nbr v, m ∉ excl → m ∈ visited ∨ m ∈ wl)
    {w x : ℕ} (hpath : Relation.ReflTransGen (SRel nbr excl) w x)
    (hw : w ∈ visited) (hx : x ∉ visited) :
    ∃ p ∈ wl, p ∉ excl ∧ Relation.ReflTransGen (SRel nbr excl) p x := by
  induction hpath using Relation.ReflTransGen.head_induction_on with
  | refl => exact absurd hw hx
  | head hstep hrest ih =>
    rename_i a c
    rcases hseed a hw c hstep.1 hstep.2 with hc | hc
    · exact ih hc
    · exact ⟨c, hc, hstep.2, hrest⟩

/-- Completeness of the early-returning search: a chain from the worklist
to an unvisited target forces the answer true. -/
theorem connAux_complete {g : Graph} {nbr : ℕ → List ℕ} {t excl : Finset ℕ}
    (hnbr : ∀ n m, m ∈ nbr n → m ∈ g.V)
    (hdeg : ∀ n ∈ g.V, (nbr n).length ≤ g.degBound) :
    ∀ (fuel : ℕ) (visited : Finset ℕ) (wl : List ℕ),
      (∀ n ∈ wl, n ∈ g.V) →
      searchFuel g visited wl ≤ fuel →
      (∀ v ∈ visited, ∀ m ∈ nbr v, m ∉ excl → m ∈ visited ∨ m ∈ wl) →
      ∀ w x, w ∈ wl → w ∉ excl →
        Relation.ReflTransGen (SRel nbr excl) w x → x ∈ t → x ∉ visited →
        connAux nbr t excl fuel visited wl = true := by
  intro fuel
  induction fuel with
  | zero =>
    intro visited wl hwl hfuel hseed w x hw hwe hpath hxt hxv
    match wl with
    | [] => simp at hw
    | n :: wl =>
      exfalso
      have := searchFuel_skip g visited n wl
      omega
  | succ fuel ih =>
    intro visited wl hwl hfuel hseed w x hw hwe hpath hxt hxv
    match wl with
    | [] => simp at hw
    | n :: wl =>
      simp only [connAux]
      by_cases hcase : n ∈ visited ∨ n ∈ excl
      · rw [if_pos hcase]
        have hf := searchFuel_skip g visited n wl
        have hseed' : ∀ v ∈ visited, ∀ m ∈ nbr v, m ∉ excl →
            m ∈ visited ∨ m ∈ wl := by
          intro v hv m hm hme
          rcases hseed v hv m hm hme with h | h
          · exact Or.inl h
          · rcases List.mem_cons.mp h with h | h
            · subst h
              rcases hcase with h' | h'
              · exact Or.inl h'
              · exact absurd h' hme
            · exact Or.inr h
        have hwl' : ∀ m ∈ wl, m ∈ g.V :=
          fun m hm => hwl m (List.mem_cons_of_mem n hm)
        rcases List.mem_cons.mp hw with hw | hw
        · subst hw
          have hwv : w ∈ visited := by
            rcases hcase with h' | h'
            · exact h'
            · exact absurd h' hwe
          rcases escape_lemma hseed' hpath hwv hxv with ⟨p, hp, hpe, hppath⟩
          exact ih visited wl hwl' (by omega) hseed' p x hp hpe hppath hxt hxv
        · exact ih visited wl hwl' (by omega) hseed' w x hw hwe hpath hxt hxv
      · rw [if_neg hcase]
        have hV : n ∈ g.V := hwl n (List.mem_cons_self _ _)
        have hnv : n ∉ visited := fun hn => hcase (Or.inl hn)
        have hne : n ∉ excl := fun hn => hcase (Or.inr hn)
        by_cases ht : n ∈ t
        · rw [if_pos ht]
        · rw [if_neg ht]
          have hf := @searchFuel_expand g visited n wl (nbr n)
            hV hnv (hdeg n hV)
          have hwl' : ∀ m ∈ wl ++ nbr n, m ∈ g.V := by
            intro m hm
            rcases List.mem_append.mp hm with hm | hm
            · exact hwl m (List.mem_cons_of_mem n hm)
            · exact hnbr n m hm
          have hseed' : ∀ v ∈ insert n visited, ∀ m ∈ nbr v, m ∉ excl →
              m ∈ insert n visited ∨ m ∈ wl ++ nbr n := by
            intro v hv m hm hme
            rcases Finset.mem_insert.mp hv with hv | hv
            · subst hv
              exact Or.inr (List.mem_append.mpr (Or.inr hm))
            · rcases hseed v hv m hm hme with h | h
              · exact Or.inl (Finset.mem_insert_of_mem h)
              · rcases List.mem_cons.mp h with h | h
                · exact Or.inl (h ▸ Finset.mem_insert_self n visited)
                · exact Or.inr (List.mem_append.mpr (Or.inl h))
          have hxn : x ≠ n := fun hxe => ht (hxe ▸ hxt)
          have hxv' : x ∉ insert n visited := by
            intro hc
            rcases Finset.mem_insert.mp hc with hc | hc
            · exact hxn hc
            · exact hxv hc
          rcases List.mem_cons.mp hw with hw | hw
          · subst hw
            rcases (Relation.reflTransGen_iff_eq_or_transGen.mp hpath) with
              heq | htg
            · exact absurd heq hxn
            · rcases (Relation.TransGen.head'_iff).mp htg with ⟨c, hwc, hcx⟩
              exact ih (insert w visited) (wl ++ nbr w) hwl' (by omega) hseed'
                c x (List.mem_append.mpr (Or.inr hwc.1)) hwc.2 hcx hxt hxv'
          · exact ih (insert n visited) (wl ++ nbr n) hwl' (by omega) hseed'
              w x (List.mem_append.mpr (Or.inl hw)) hwe hpath hxt hxv'

/-- Characterization of isConnectedExcluding: the source and target sets
meet, or some nonempty path from the source set reaches the target set with
every node after the first avoiding the excluded set. -/
theorem isConnectedExcluding_iff {g : Graph} {f t excl : Finset ℕ} :
    isConnectedExcluding g f t excl = true ↔
      (f ∩ t).Nonempty ∨
      ∃ a ∈ f, ∃ b ∈ t, Relation.TransGen (SRel g.succs excl) a b := by
  unfold isConnectedExcluding
  by_cases hft : (f ∩ t).Nonempty
  · simp [hft]
  · rw [if_neg hft]
    have hnbr : ∀ n m, m ∈ g.succs n → m ∈ g.V := fun n m h => mem_succs_V h
    have hdeg : ∀ n ∈ g.V, (g.succs n).length ≤ g.degBound :=
      fun n hn => succs_length_le hn
    have hwl : ∀ n ∈ seedWl g.succs f, n ∈ g.V := by
      intro n hn
      rcases mem_seedWl.mp hn with ⟨a, _, ha⟩
      exact mem_succs_V ha
    have hseed : ∀ v ∈ f, ∀ m ∈ g.succs v, m ∉ excl →
        m ∈ f ∨ m ∈ seedWl g.succs f :=
      fun v hv m hm _ => Or.inr (mem_seedWl.mpr ⟨v, hv, hm⟩)
    constructor
    · intro h
      rcases connAux_sound _ _ _ h with ⟨x, hx, hxv, w, hw, hwe, hpath⟩
      rcases mem_seedWl.mp hw with ⟨a, ha, haw⟩
      exact Or.inr ⟨a, ha, x, hx,
        Relation.TransGen.head' ⟨haw, hwe⟩ hpath⟩
    · intro h
      rcases h with h | ⟨a, ha, b, hb, htg⟩
      · exact absurd h hft
      · rcases (Relation.TransGen.head'_iff).mp htg with ⟨c, hac, hcb⟩
        have hbv : b ∉ f := by
          intro hc
          exact hft ⟨b, Finset.mem_inter.mpr ⟨hc, hb⟩⟩
        exact connAux_complete hnbr hdeg _ f (seedWl g.succs f) hwl le_rfl
          hseed c b (mem_seedWl.mpr ⟨a, ha, hac.1⟩) hac.2 hcb hb hbv

/-! Soundness of oneHop: every recorded node is a target connected to the
start node. -/

theorem oneHopAux_sound {nbr : ℕ → List ℕ} {t : Finset ℕ} :
    ∀ (fuel : ℕ) (visited result : Finset ℕ) (wl : List ℕ) (x : ℕ),
      x ∈ (oneHopAux nbr t fuel visited result wl).2 →
      x ∈ result ∨ (x ∈ t ∧ ∃ w ∈ wl,
        Relation.ReflTransGen (SrcRel nbr visited) w x) := by
  intro fuel
  induction fuel with
  | zero => intro visited result wl x hx; exact Or.inl hx
  | succ fuel ih =>
    intro visited result wl x hx
    match wl with
    | [] => exact Or.inl hx
    | n :: wl =>
      simp only [oneHopAux] at hx
      have hres : ∀ {r : Finset ℕ},
          x ∈ (if n ∈ t then insert n r else r) →
          x ∈ r ∨ (x ∈ t ∧ x = n) := by
        intro r hr
        by_cases hnt : n ∈ t
        · rw [if_pos hnt] at hr
          rcases Finset.mem_insert.mp hr with hr | hr
          · exact Or.inr ⟨hr ▸ hnt, hr⟩
          · exact Or.inl hr
        · rw [if_neg hnt] at hr
          exact Or.inl hr
      by_cases hcase : n ∈ visited
      · rw [if_pos hcase] at hx
        rcases ih visited _ wl x hx with hx' | ⟨hxt, w, hw, hpath⟩
        · rcases hres hx' with h | ⟨hxt, hxn⟩
          · exact Or.inl h
          · exact Or.inr ⟨hxt, n, List.mem_cons_self _ _,
              hxn ▸ Relation.ReflTransGen.refl⟩
        · exact Or.inr ⟨hxt, w, List.mem_cons_of_mem n hw, hpath⟩
      · rw [if_neg hcase] at hx
        rcases ih (insert n visited) _ (wl ++ nbr n) x hx with
          hx' | ⟨hxt, w, hw, hpath⟩
        · rcases hres hx' with h | ⟨hxt, hxn⟩
          · exact Or.inl h
          · exact Or.inr ⟨hxt, n, List.mem_cons_self _ _,
              hxn ▸ Relation.ReflTransGen.refl⟩
        · have hpath' : Relation.ReflTransGen (SrcRel nbr visited) w x :=
            Relation.ReflTransGen.mono
              (fun _ _ hr => ⟨hr.1, fun hc => hr.2 (Finset.mem_insert_of_mem hc)⟩)
              hpath
          rcases List.mem_append.mp hw with hw | hw
          · exact Or.inr ⟨hxt, w, List.mem_cons_of_mem n hw, hpath'⟩
          · exact Or.inr ⟨hxt, n, List.mem_cons_self _ _,
              Relation.ReflTransGen.head ⟨hw, hcase⟩ hpath'⟩

/-- Forward chains of any step relation contained in the edge relation. -/
theorem rtg_sub_edge_reach {g : Graph} {r : ℕ → ℕ → Prop}
    (hr : ∀ a b, r a b → Edge g a b) {w x : ℕ}
    (h : Relation.ReflTransGen r w x) : w = x ∨ Reach g w x := by
  rcases Relation.reflTransGen_iff_eq_or_transGen.mp h with h | h
  · exact Or.inl h.symm
  · exact Or.inr (Relation.TransGen.mono hr h)

/-- Backward chains over predecessor lists, read in the edge direction;
the final node of a nonempty chain is a graph node. -/
theorem rtg_sub_preds_reach {g : Graph} {r : ℕ → ℕ → Prop}
    (hr : ∀ a b, r a b → b ∈ g.preds a) {w x : ℕ}
    (h : Relation.ReflTransGen r w x) :
    w = x ∨ (x ∈ g.V ∧ Reach g x w) := by
  induction h with
  | refl => exact Or.inl rfl
  | tail _ hstep ih =>
    rename_i b c _
    have hpred := mem_preds_iff.mp (hr b c hstep)
    have hedge : Edge g c b := hpred.2
    rcases ih with ih | ih
    · exact Or.inr ⟨hpred.1, ih ▸ Relation.TransGen.single hedge⟩
    · exact Or.inr ⟨hpred.1, Relation.TransGen.head hedge ih.2⟩

/-- Soundness of oneHop walking forward: recorded nodes are targets, equal
to or reachable from the start node. -/
theorem oneHop_sound_fw {g : Graph} {frm x : ℕ} {t : Finset ℕ}
    (h : x ∈ oneHop g true frm t) : x ∈ t ∧ (x = frm ∨ Reach g frm x) := by
  unfold oneHop at h
  rcases oneHopAux_sound _ _ _ _ _ h with h | ⟨hxt, w, hw, hpath⟩
  · simp at h
  · refine ⟨hxt, ?_⟩
    have hnbr : g.nbr true = g.succs := by simp [Graph.nbr]
    rw [hnbr] at hw hpath
    have hconv := @rtg_sub_edge_reach g _ (fun a b hab => hab.1) _ _ hpath
    rcases List.mem_cons.mp hw with hw | hw
    · subst hw
      rcases hconv with h | h
      · exact Or.inl h.symm
      · exact Or.inr h
    · have hedge : Edge g frm w := hw
      rcases hconv with h | h
      · exact Or.inr (h ▸ Relation.TransGen.single hedge)
      · exact Or.inr (Relation.TransGen.head hedge h)

/-- Soundness of oneHop walking backward: recorded nodes are targets, equal
to the start node or reaching it. -/
theorem oneHop_sound_bw {g : Graph} {frm x : ℕ} {t : Finset ℕ}
    (h : x ∈ oneHop g false frm t) :
    x ∈ t ∧ (x = frm ∨ (x ∈ g.V ∧ Reach g x frm)) := by
  unfold oneHop at h
  rcases oneHopAux_sound _ _ _ _ _ h with h | ⟨hxt, w, hw, hpath⟩
  · simp at h
  · refine ⟨hxt, ?_⟩
    have hnbr : g.nbr false = g.preds := by simp [Graph.nbr]
    rw [hnbr] at hw hpath
    have hconv := @rtg_sub_preds_reach g _ (fun a b hab => hab.1) _ _ hpath
    rcases List.mem_cons.mp hw with hw | hw
    · subst hw
      rcases hconv with h | h
      · exact Or.inl h.symm
      · exact Or.inr h
    · have hpred := mem_preds_iff.mp hw
      have hedge : Edge g w frm := hpred.2
      rcases hconv with h | h
      · exact Or.inr ⟨h ▸ hpred.1, Relation.TransGen.single (h ▸ hedge)⟩
      · exact Or.inr ⟨h.1, h.2.tail hedge⟩

theorem mem_foldr_union {f : ℕ → Finset ℕ} {l : List ℕ} {x : ℕ} :
    x ∈ l.foldr (fun i acc => f i ∪ acc) ∅ ↔ ∃ i ∈ l, x ∈ f i := by
  induction l with
  | nil => simp
  | cons a l ih => simp [List.foldr_cons, ih]

/-- Soundness of firstTwoEncountered walking backward: every recorded node
is a target that is the start node or reaches it. -/
theorem firstTwo_sound_bw {g : Graph} {frm x : ℕ} {t : Finset ℕ}
    (h : x ∈ firstTwoEncountered g false frm t) :
    x ∈ t ∧ (x = frm ∨ (x ∈ g.V ∧ Reach g x frm)) := by
  unfold firstTwoEncountered at h
  rcases Finset.mem_union.mp h with h | h
  · exact oneHop_sound_bw h
  · rcases mem_foldr_union.mp h with ⟨i, hi, hx⟩
    have hi' := oneHop_sound_bw (mem_ascList.mp hi)
    have hx' := oneHop_sound_bw hx
    refine ⟨hx'.1, ?_⟩
    rcases hx'.2 with hxi | hxi
    · subst hxi
      exact hi'.2
    · rcases hi'.2 with hif | hif
      · exact Or.inr ⟨hxi.1, hif ▸ hxi.2⟩
      · exact Or.inr ⟨hxi.1, hxi.2.trans hif.2⟩

/-- Soundness of firstTwoEncountered walking forward: every recorded node
is a target that is the start node or reachable from it. -/
theorem firstTwo_sound_fw {g : Graph} {frm x : ℕ} {t : Finset ℕ}
    (h : x ∈ firstTwoEncountered g true frm t) :
    x ∈ t ∧ (x = frm ∨ Reach g frm x) := by
  unfold firstTwoEncountered at h
  rcases Finset.mem_union.mp h with h | h
  · exact oneHop_sound_fw h
  · rcases mem_foldr_union.mp h with ⟨i, hi, hx⟩
    have hi' := oneHop_sound_fw (mem_ascList.mp hi)
    have hx' := oneHop_sound_fw hx
    refine ⟨hx'.1, ?_⟩
    rcases hx'.2 with hxi | hxi
    · subst hxi
      exact hi'.2
    · rcases hi'.2 with hif | hif
      · exact Or.inr (hif ▸ hxi)
      · exact Or.inr (hif.trans hxi)

/-! Characterizations of the oracle's candidate sets and of the oracle
itself. -/

theorem transGen_preds_last_V {g : Graph} {excl : Finset ℕ} {b x : ℕ}
    (h : Relation.TransGen (SRel g.preds excl) b x) : x ∈ g.V := by
  induction h with
  | single hs => exact mem_preds_V hs.1
  | tail _ hs _ => exact mem_preds_V hs.1

/-- Backward avoiding chains with nothing excluded are exactly paths into
the start from a graph node. -/
theorem transGen_srel_preds_empty {g : Graph} {b x : ℕ} :
    Relation.TransGen (SRel g.preds ∅) b x ↔ x ∈ g.V ∧ Reach g x b := by
  constructor
  · intro h
    exact ⟨transGen_preds_last_V h, transGen_srel_preds_reach h⟩
  · intro h
    exact reach_transGen_srel_preds h.1 h.2

/-- What the code actually computes as the alpha candidates of a desired
node: the members of S ∪ {e} lying on a plain path from the entry to d,
with no exclusion of interior instrumented nodes. -/
theorem mem_thisAlphas {g : Graph} {S : Finset ℕ} {e d a : ℕ} :
    a ∈ thisAlphas g S e d ↔
      a ∈ insert e S ∧ (a = e ∨ Reach g e a) ∧
        (a = d ∨ (a ∈ g.V ∧ Reach g a d)) := by
  unfold thisAlphas
  rw [Finset.mem_inter, mem_connectedExcluding]
  simp only [Finset.mem_singleton, transGen_srel_empty, transGen_srel_preds_empty]
  constructor
  · rintro ⟨⟨h1, h2⟩, h3⟩
    refine ⟨h3, ?_, ?_⟩
    · rcases h1 with h | ⟨x, hx, hr⟩
      · exact Or.inl h
      · exact Or.inr (hx ▸ hr)
    · rcases h2 with h | ⟨x, hx, hr⟩
      · exact Or.inl h
      · exact Or.inr (hx ▸ hr)
  · rintro ⟨h3, h1, h2⟩
    refine ⟨⟨?_, ?_⟩, h3⟩
    · rcases h1 with h | h
      · exact Or.inl h
      · exact Or.inr ⟨e, rfl, h⟩
    · rcases h2 with h | h
      · exact Or.inl h
      · exact Or.inr ⟨d, rfl, h⟩

/-- What the code actually computes as the beta candidates of a desired
node: the members of S ∪ X that are d itself or reachable from d. -/
theorem mem_thisBetas {g : Graph} {S X : Finset ℕ} {d b : ℕ} :
    b ∈ thisBetas g S X d ↔ b ∈ S ∪ X ∧ (b = d ∨ Reach g d b) := by
  unfold thisBetas
  rw [Finset.mem_inter, mem_connectedExcluding]
  simp only [Finset.mem_singleton, transGen_srel_empty]
  constructor
  · rintro ⟨⟨h1, _⟩, h3⟩
    refine ⟨h3, ?_⟩
    rcases h1 with h | ⟨x, hx, hr⟩
    · exact Or.inl h
    · exact Or.inr (hx ▸ hr)
  · rintro ⟨h3, h1⟩
    refine ⟨⟨?_, Or.inl h3⟩, h3⟩
    rcases h1 with h | h
    · exact Or.inl h
    · exact Or.inr ⟨d, rfl, h⟩

theorem ite_true_iff {P : Prop} [Decidable P] {b : Bool} :
    ((if P then true else b) = true) ↔ (¬ P → b = true) := by
  by_cases h : P <;> simp [h]

/-- The oracle accepts S exactly when no uninstrumented desired node has an
ambiguous triangle over its computed alpha and beta candidates. -/
theorem isCoverageSet_iff {g : Graph} {S D X : Finset ℕ} {e : ℕ} :
    isCoverageSet g S D e X = true ↔
      ∀ d ∈ D, d ∉ S → ∀ a ∈ thisAlphas g S e d, d ≠ a →
        ∀ b ∈ thisBetas g S X d, d ≠ b →
          hasAmbiguousTriangle g a b d e X S = false := by
  simp only [isCoverageSet, List.all_eq_true, mem_ascList, ite_true_iff,
    Bool.not_eq_true']

/-- The close oracle accepts S exactly when no uninstrumented desired node
has an ambiguous triangle over the one-or-two-hop candidates. -/
theorem isCoverageSetClose_iff {g : Graph} {S D X : Finset ℕ} {e : ℕ} :
    isCoverageSetClose g S D e X = true ↔
      ∀ d ∈ D, d ∉ S →
        ∀ a ∈ firstTwoEncountered g false d (insert e S), d ≠ a →
          ∀ b ∈ firstTwoEncountered g true d (S ∪ X), d ≠ b →
            hasAmbiguousTriangle g a b d e X S = false := by
  simp only [isCoverageSetClose, List.all_eq_true, mem_ascList,
    ite_true_iff, Bool.not_eq_true']

/-- The triangle test as a conjunction of its stages. -/
theorem hasAmbiguousTriangle_iff {g : Graph} {a b d e : ℕ} {X S : Finset ℕ} :
    hasAmbiguousTriangle g a b d e X S = true ↔
      connectedExcluding g {e} {a} {d} ≠ ∅ ∧
      connectedExcluding g {b} (X.erase d) {d} ≠ ∅ ∧
      isConnectedExcluding g {a} {d}
        ((S \ connectedExcluding g {e} {a} {d}) \
          connectedExcluding g {b} (X.erase d) {d}) = true ∧
      isConnectedExcluding g {d} {b}
        ((S \ connectedExcluding g {e} {a} {d}) \
          connectedExcluding g {b} (X.erase d) {d}) = true ∧
      isConnectedExcluding g {a} {b}
        (insert d ((S \ connectedExcluding g {e} {a} {d}) \
          connectedExcluding g {b} (X.erase d) {d})) = true := by
  unfold hasAmbiguousTriangle
  by_cases h12 : connectedExcluding g {e} {a} {d} = ∅ ∨
      connectedExcluding g {b} (X.erase d) {d} = ∅
  · simp only [if_pos h12]
    constructor
    · intro h; simp at h
    · rintro ⟨h1, h2, _⟩
      rcases h12 with h | h
      · exact absurd h h1
      · exact absurd h h2
  · simp only [if_neg h12]
    push_neg at h12
    by_cases hc1 : isConnectedExcluding g {a} {d}
        ((S \ connectedExcluding g {e} {a} {d}) \
          connectedExcluding g {b} (X.erase d) {d}) = true
    · by_cases hc2 : isConnectedExcluding g {d} {b}
          ((S \ connectedExcluding g {e} {a} {d}) \
            connectedExcluding g {b} (X.erase d) {d}) = true
      · by_cases hc3 : isConnectedExcluding g {a} {b}
            (insert d ((S \ connectedExcluding g {e} {a} {d}) \
              connectedExcluding g {b} (X.erase d) {d})) = true
        · simp [hc1, hc2, hc3, h12.1, h12.2]
        · simp [hc1, hc2, hc3]
      · simp [hc1, hc2]
    · simp [hc1]

/-- Shrinking the excluded set preserves connectivity. -/
theorem isConnectedExcluding_anti {g : Graph} {f t E E' : Finset ℕ}
    (hE : E ⊆ E') (h : isConnectedExcluding g f t E' = true) :
    isConnectedExcluding g f t E = true := by
  rw [isConnectedExcluding_iff] at h ⊢
  rcases h with h | ⟨a, ha, b, hb, htg⟩
  · exact Or.inl h
  · exact Or.inr ⟨a, ha, b, hb,
      Relation.TransGen.mono (fun _ _ hr => ⟨hr.1, fun hc => hr.2 (hE hc)⟩) htg⟩

/-- Removing probes preserves any ambiguous triangle: the Y sets do not
depend on S and all remaining connectivity tests only get easier. -/
theorem hasAmbiguousTriangle_anti {g : Graph} {a b d e : ℕ}
    {X S T : Finset ℕ} (hsub : S ⊆ T)
    (h : hasAmbiguousTriangle g a b d e X T = true) :
    hasAmbiguousTriangle g a b d e X S = true := by
  rw [hasAmbiguousTriangle_iff] at h ⊢
  obtain ⟨h1, h2, hc1, hc2, hc3⟩ := h
  have hmono : (S \ connectedExcluding g {e} {a} {d}) \
      connectedExcluding g {b} (X.erase d) {d} ⊆
      (T \ connectedExcluding g {e} {a} {d}) \
        connectedExcluding g {b} (X.erase d) {d} :=
    Finset.sdiff_subset_sdiff (Finset.sdiff_subset_sdiff hsub le_rfl) le_rfl
  exact ⟨h1, h2, isConnectedExcluding_anti hmono hc1,
    isConnectedExcluding_anti hmono hc2,
    isConnectedExcluding_anti (Finset.insert_subset_insert d hmono) hc3⟩

/-- Reachability facts carried by a found triangle: alpha reaches d (or is
d), d reaches beta (or is beta), and the entry reaches alpha (or is
alpha). -/
theorem hasAmbiguousTriangle_reach {g : Graph} {a b d e : ℕ}
    {X S : Finset ℕ} (h : hasAmbiguousTriangle g a b d e X S = true) :
    (a = d ∨ Reach g a d) ∧ (d = b ∨ Reach g d b) ∧
      (a = e ∨ Reach g e a) := by
  rw [hasAmbiguousTriangle_iff] at h
  obtain ⟨h1, _, hc1, hc2, _⟩ := h
  refine ⟨?_, ?_, ?_⟩
  · rcases isConnectedExcluding_iff.mp hc1 with hne | ⟨x, hx, y, hy, htg⟩
    · rcases hne with ⟨x, hx⟩
      simp only [Finset.mem_inter, Finset.mem_singleton] at hx
      exact Or.inl (hx.1.symm ▸ hx.2 ▸ rfl)
    · simp only [Finset.mem_singleton] at hx hy
      subst hx; subst hy
      exact Or.inr (transGen_srel_reach htg)
  · rcases isConnectedExcluding_iff.mp hc2 with hne | ⟨x, hx, y, hy, htg⟩
    · rcases hne with ⟨x, hx⟩
      simp only [Finset.mem_inter, Finset.mem_singleton] at hx
      exact Or.inl (hx.1.symm ▸ hx.2 ▸ rfl)
    · simp only [Finset.mem_singleton] at hx hy
      subst hx; subst hy
      exact Or.inr (transGen_srel_reach htg)
  · have hne : connectedExcluding g {e} {a} {d} ≠ ∅ := h1
    rcases Finset.nonempty_iff_ne_empty.mpr hne with ⟨y, hy⟩
    rcases mem_connectedExcluding.mp hy with ⟨hfw, hbw⟩
    simp only [Finset.mem_singleton] at hfw hbw
    have hya : y = a ∨ Reach g y a := by
      rcases hbw with h | ⟨x, hx, htg⟩
      · exact Or.inl h
      · subst hx
        exact Or.inr (transGen_srel_preds_reach htg)
    rcases hfw with hye | ⟨x, hx, htg⟩
    · rcases hya with h | h
      · exact Or.inl (h.symm.trans hye)
      · exact Or.inr (hye ▸ h)
    · have hey : Reach g e y := transGen_srel_reach (hx ▸ htg)
      rcases hya with h | h
      · exact Or.inr (h ▸ hey)
      · exact Or.inr (hey.trans h)

/-- A plain reachability fact is detected by isConnectedExcluding with the
empty excluded set. -/
theorem reach_implies_conn {g : Graph} {a b : ℕ} (h : Reach g a b) :
    isConnectedExcluding g {a} {b} ∅ = true :=
  isConnectedExcluding_iff.mpr
    (Or.inr ⟨a, by simp, b, by simp, transGen_srel_empty.mpr h⟩)

/-- Stabilization of the early-returning search, mirroring
searchAux_congr. -/
theorem connAux_congr {g : Graph} {nbr : ℕ → List ℕ} {t excl : Finset ℕ}
    (hnbr : ∀ n m, m ∈ nbr n → m ∈ g.V)
    (hdeg : ∀ n ∈ g.V, (nbr n).length ≤ g.degBound) :
    ∀ (f1 : ℕ) (f2 : ℕ) (visited : Finset ℕ) (wl : List ℕ),
      (∀ n ∈ wl, n ∈ g.V) →
      searchFuel g visited wl ≤ f1 → searchFuel g visited wl ≤ f2 →
      connAux nbr t excl f1 visited wl = connAux nbr t excl f2 visited wl := by
  intro f1
  induction f1 with
  | zero =>
    intro f2 visited wl hwl h1 h2
    match wl with
    | [] => cases f2 <;> rfl
    | n :: wl =>
      exfalso
      have := searchFuel_skip g visited n wl
      omega
  | succ f1 ih =>
    intro f2 visited wl hwl h1 h2
    match wl with
    | [] => cases f2 <;> rfl
    | n :: wl =>
      have hlen : 1 ≤ searchFuel g visited (n :: wl) := by
        have := searchFuel_skip g visited n wl
        omega
      match f2 with
      | 0 => omega
      | f2 + 1 =>
        simp only [connAux]
        by_cases hcase : n ∈ visited ∨ n ∈ excl
        · rw [if_pos hcase, if_pos hcase]
          have hf := searchFuel_skip g visited n wl
          exact ih f2 visited wl (fun m hm => hwl m (List.mem_cons_of_mem n hm))
            (by omega) (by omega)
        · rw [if_neg hcase, if_neg hcase]
          by_cases ht : n ∈ t
          · rw [if_pos ht, if_pos ht]
          · rw [if_neg ht, if_neg ht]
            have hV : n ∈ g.V := hwl n (List.mem_cons_self _ _)
            have hnv : n ∉ visited := fun h => hcase (Or.inl h)
            have hf := @searchFuel_expand g visited n wl (nbr n)
              hV hnv (hdeg n hV)
            refine ih f2 (insert n visited) (wl ++ nbr n) ?_ (by omega) (by omega)
            intro m hm
            rcases List.mem_append.mp hm with hm | hm
            · exact hwl m (List.mem_cons_of_mem n hm)
            · exact hnbr n m hm

/-! Claim theorems. -/

/-- Claim C2, counterexample: on the chain 0 -> 1 -> 2 -> 3 -> 4 with
S = {1, 2}, e = 0, d = 3, the code includes nodes 0 and 1 among the alphas
of d although neither can reach d without passing through the other
instrumented node 2 (the spec set is {2}); the claimed "connecting paths
exclude interior instrumented nodes" computation differs from what
isCoverageSet computes. -/
theorem claim_C2_counterexample :
    thisAlphas gChain {1, 2} 0 3 ≠ specAlphas gChain {1, 2} 0 3 ∧
    (1 : ℕ) ∈ thisAlphas gChain {1, 2} 0 3 ∧
    (1 : ℕ) ∉ specAlphas gChain {1, 2} 0 3 := by
  refine ⟨?_, by decide, by decide⟩
  decide

/-- Claim C2, amended: isCoverageSet computes alphas(d) as the nodes of
S ∪ {e} that lie on a plain entry-to-d path (reachable from e and reaching
d), with no exclusion of interior instrumented nodes, and betas(d) as the
nodes of S ∪ X equal to d or plainly reachable from d. -/
theorem claim_C2_amended (g : Graph) (S X : Finset ℕ) (e d : ℕ) :
    (∀ a, a ∈ thisAlphas g S e d ↔
      a ∈ insert e S ∧ (a = e ∨ Reach g e a) ∧
        (a = d ∨ (a ∈ g.V ∧ Reach g a d))) ∧
    (∀ b, b ∈ thisBetas g S X d ↔
      b ∈ S ∪ X ∧ (b = d ∨ Reach g d b)) :=
  ⟨fun _ => mem_thisAlphas, fun _ => mem_thisBetas⟩

/-- Claim C3, counterexample: on the two-node cycle 0 -> 1 -> 0 with
D = {0}, e = 0, X = {1}, the empty probe set is accepted but its superset
{1} is rejected: adding a probe can break coverage. -/
theorem claim_C3_counterexample :
    isCoverageSet gTwo ∅ {0} 0 {1} = true ∧
    (∅ : Finset ℕ) ⊆ {1} ∧
    isCoverageSet gTwo {1} {0} 0 {1} = false := by
  refine ⟨by decide, by decide, by decide⟩

/-- Claim C3, amended: adding probes never breaks coverage provided each
added probe is the entry node or cannot reach any desired node left
uninstrumented, and is a crash point or is not reachable from any such
desired node.  (The counterexample adds a probe lying on a cycle with the
uninstrumented desired entry node, which creates a new alpha-beta pair.) -/
theorem claim_C3_amended {g : Graph} {S T D X : Finset ℕ} {e : ℕ}
    (hsub : S ⊆ T)
    (ha : ∀ s ∈ T, s ∉ S → s ≠ e → ∀ d ∈ D, d ∉ T → ¬ Reach g s d)
    (hb : ∀ s ∈ T, s ∉ S → s ∉ X → ∀ d ∈ D, d ∉ T → ¬ Reach g d s)
    (h : isCoverageSet g S D e X = true) :
    isCoverageSet g T D e X = true := by
  rw [isCoverageSet_iff] at h ⊢
  intro d hd hdT a haA hda b hbB hdb
  by_contra hamb
  rw [Bool.not_eq_false] at hamb
  have hambS : hasAmbiguousTriangle g a b d e X S = true :=
    hasAmbiguousTriangle_anti hsub hamb
  have hreach := hasAmbiguousTriangle_reach hamb
  have hra : Reach g a d := by
    rcases hreach.1 with h' | h'
    · exact absurd h'.symm hda
    · exact h'
  have hrb : Reach g d b := by
    rcases hreach.2.1 with h' | h'
    · exact absurd h' hdb
    · exact h'
  have hdS : d ∉ S := fun hc => hdT (hsub hc)
  have haA' : a ∈ thisAlphas g S e d := by
    rw [mem_thisAlphas] at haA ⊢
    refine ⟨?_, haA.2.1, haA.2.2⟩
    rcases Finset.mem_insert.mp haA.1 with h' | h'
    · exact h' ▸ Finset.mem_insert_self e S
    · by_cases hsS : a ∈ S
      · exact Finset.mem_insert_of_mem hsS
      · by_cases hae : a = e
        · exact hae ▸ Finset.mem_insert_self e S
        · exact absurd hra (ha a h' hsS hae d hd hdT)
  have hbB' : b ∈ thisBetas g S X d := by
    rw [mem_thisBetas] at hbB ⊢
    refine ⟨?_, hbB.2⟩
    rcases Finset.mem_union.mp hbB.1 with h' | h'
    · by_cases hbX : b ∈ X
      · exact Finset.mem_union_right S hbX
      · by_cases hbS : b ∈ S
        · exact Finset.mem_union_left X hbS
        · exact absurd hrb (hb b h' hbS hbX d hd hdT)
    · exact Finset.mem_union_right S h'
  exact absurd hambS
    (by rw [h d hd hdS a haA' hda b hbB' hdb]; simp)

/-- Claim C3, witness for the amended statement: chain 0 -> 1 -> 2,
D = {1}, X = {2}: the empty probe set is a coverage set, and adding the
crash-point probe 2 (which cannot reach node 1) preserves acceptance. -/
theorem claim_C3_witness :
    isCoverageSet gChain3 ∅ {1} 0 {2} = true ∧
    isCoverageSet gChain3 {2} {1} 0 {2} = true := by
  refine ⟨by decide, ?_⟩
  refine @claim_C3_amended gChain3 ∅ {2} {1} {2} 0 (Finset.empty_subset _)
    ?_ ?_ (by decide)
  · intro s hs _ hse d hd _
    have hs2 : s = 2 := Finset.mem_singleton.mp hs
    have hd1 : d = 1 := Finset.mem_singleton.mp hd
    subst hs2; subst hd1
    intro hr
    exact absurd (reach_implies_conn hr) (by decide)
  · intro s hs _ hsX
    exact absurd hs hsX

/-- Claim C10: a refutation by the close oracle is always genuine.  Every
triangle the close variant finds over the one-or-two-hop alphas and betas
is also found by the exact oracle: its alpha lies in S ∪ {e}, reaches d,
and (because the triangle's Y1 leg is nonempty) is reachable from the
entry, so it is among the exact alphas; symmetrically for beta. -/
theorem claim_C10 {g : Graph} {S D X : Finset ℕ} {e : ℕ}
    (h : isCoverageSetClose g S D e X = false) :
    isCoverageSet g S D e X = false := by
  by_contra hexact
  rw [Bool.not_eq_false] at hexact
  suffices hclose : isCoverageSetClose g S D e X = true by
    rw [hclose] at h; cases h
  rw [isCoverageSet_iff] at hexact
  rw [isCoverageSetClose_iff]
  intro d hd hdS a haA hda b hbB hdb
  by_contra hamb
  rw [Bool.not_eq_false] at hamb
  have hreach := hasAmbiguousTriangle_reach hamb
  have hsa := firstTwo_sound_bw haA
  have hsb := firstTwo_sound_fw hbB
  have haA' : a ∈ thisAlphas g S e d := by
    rw [mem_thisAlphas]
    refine ⟨hsa.1, hreach.2.2, ?_⟩
    rcases hsa.2 with h' | h'
    · exact absurd h'.symm hda
    · exact Or.inr h'
  have hbB' : b ∈ thisBetas g S X d := by
    rw [mem_thisBetas]
    refine ⟨hsb.1, ?_⟩
    rcases hsb.2 with h' | h'
    · exact absurd h'.symm hdb
    · exact Or.inr h'
  exact absurd hamb
    (by rw [hexact d hd hdS a haA' hda b hbB' hdb]; simp)

/-- Claim C10, witness: on the diamond 0 -> 1, 0 -> 2, 1 -> 3, 2 -> 3 with
D = {1} and no probes, the close oracle refutes and so does the exact
oracle. -/
theorem claim_C10_witness :
    isCoverageSetClose gDiamond ∅ {1} 0 {3} = false ∧
    isCoverageSet gDiamond ∅ {1} 0 {3} = false :=
  ⟨by decide, claim_C10 (by decide)⟩

/-! Greedy-pass invariants. -/

/-- The greedy removal pass preserves oracle acceptance: a removal is kept
only when the exact oracle accepts, and a refuted removal is undone
exactly. -/
theorem foldl_removeStep_coverage {g : Graph} {D X : Finset ℕ} {e : ℕ} :
    ∀ (L : List ℕ) (S : Finset ℕ), L.Nodup → (∀ j ∈ L, j ∈ S) →
      isCoverageSet g S D e X = true →
      isCoverageSet g (L.foldl (removeStep g D e X) S) D e X = true := by
  intro L
  induction L with
  | nil => intro S _ _ h; exact h
  | cons i L ih =>
    intro S hnd hmem h
    rw [List.foldl_cons]
    have hiS : i ∈ S := hmem i (List.mem_cons_self _ _)
    have hnd' : L.Nodup := hnd.of_cons
    have hiL : i ∉ L := (List.nodup_cons.mp hnd).1
    by_cases h1 : isCoverageSetClose g (S.erase i) D e X = true
    · by_cases h2 : isCoverageSet g (S.erase i) D e X = true
      · have hstep : removeStep g D e X S i = S.erase i := by
          simp [removeStep, h1, h2]
        rw [hstep]
        refine ih (S.erase i) hnd' ?_ h2
        intro j hj
        exact Finset.mem_erase.mpr
          ⟨fun hji => hiL (hji ▸ hj), hmem j (List.mem_cons_of_mem i hj)⟩
      · have hstep : removeStep g D e X S i = S := by
          simp [removeStep, h1, h2, Finset.insert_erase hiS]
        rw [hstep]
        exact ih S hnd' (fun j hj => hmem j (List.mem_cons_of_mem i hj)) h
    · have hstep : removeStep g D e X S i = S := by
        simp [removeStep, h1, Finset.insert_erase hiS]
      rw [hstep]
      exact ih S hnd' (fun j hj => hmem j (List.mem_cons_of_mem i hj)) h

theorem perm_insertByCost (cost : ℕ → ℚ) (name : ℕ → String) (x : ℕ) :
    ∀ l : List ℕ, (insertByCost cost name x l).Perm (x :: l) := by
  intro l
  induction l with
  | nil => exact List.Perm.refl _
  | cons y ys ih =>
    unfold insertByCost
    by_cases hc : blockBefore cost name x y = true
    · rw [if_pos hc]
    · rw [if_neg hc]
      exact (List.Perm.cons y ih).trans (List.Perm.swap x y ys)

theorem perm_sortBlocksByCost (cost : ℕ → ℚ) (name : ℕ → String)
    (blocks : Finset ℕ) :
    (sortBlocksByCost cost name blocks).Perm (ascList blocks) := by
  unfold sortBlocksByCost
  induction ascList blocks with
  | nil => exact List.Perm.refl _
  | cons a l ih =>
    rw [List.foldr_cons]
    exact (perm_insertByCost cost name a _).trans (List.Perm.cons a ih)

/-- Claim C1, counterexample, on the two-node cycle 0 -> 1 -> 0.  With
I = ∅, D = {1}, X = {0} the greedy optimizer returns ∅ and the dominator
optimizer returns I = ∅, and the oracle rejects both.  Even when the
can-instrument set is itself a coverage set (I = D = X = {0, 1}), the
dominator optimizer's output {1} is rejected by the oracle. -/
theorem claim_C1_counterexample :
    isCoverageSet gTwo (locallyOptimal gTwo exCost exName 0 ∅ {1} {0})
      {1} 0 {0} = false ∧
    domGetOptimizedProbes gTwo tTwo exCost exName ∅ {1} {0} = .ok ∅ ∧
    isCoverageSet gTwo ∅ {1} 0 {0} = false ∧
    isCoverageSet gTwo {0, 1} {0, 1} 0 {0, 1} = true ∧
    domGetOptimizedProbes gTwo tTwo exCost exName {0, 1} {0, 1} {0, 1} =
      .ok {1} ∧
    isCoverageSet gTwo {1} {0, 1} 0 {0, 1} = false := by
  refine ⟨by decide, by decide, by decide, by decide, by decide, by decide⟩

/-- Claim C1, amended: when the starting can-instrument set is itself
accepted by the oracle, the greedy optimizer's output is accepted by the
oracle (each kept removal was vetted by the exact oracle, and refuted
removals are undone exactly).  The dominator optimizer offers no such
guarantee (see the counterexample). -/
theorem claim_C1_amended {g : Graph} {cost : ℕ → ℚ} {name : ℕ → String}
    {e : ℕ} {I D X : Finset ℕ}
    (h : isCoverageSet g I D e X = true) :
    isCoverageSet g (locallyOptimal g cost name e I D X) D e X = true := by
  unfold locallyOptimal
  by_cases hD : D = ∅
  · rw [if_pos hD]
    subst hD
    rw [isCoverageSet_iff]
    intro d hd
    simp at hd
  · rw [if_neg hD]
    have hperm := perm_sortBlocksByCost cost name I
    refine foldl_removeStep_coverage _ I ?_ ?_ h
    · exact hperm.nodup_iff.mpr nodup_ascList
    · intro j hj
      exact mem_ascList.mp (hperm.subset hj)

/-- Claim C1, witness for the amended statement: on the chain 0 -> 1 -> 2
with I = {1, 2} (a coverage set for D = {1}), the greedy result is accepted
by the oracle. -/
theorem claim_C1_witness :
    isCoverageSet gChain3 {1, 2} {1} 0 {2} = true ∧
    isCoverageSet gChain3
      (locallyOptimal gChain3 exCostD exName 0 {1, 2} {1} {2}) {1} 0 {2} =
      true :=
  ⟨by decide, claim_C1_amended (by decide)⟩

/-! Subset invariants of the three optimizers (claim C4). -/

theorem foldl_removeStep_subset {g : Graph} {D X : Finset ℕ} {e : ℕ}
    {I : Finset ℕ} :
    ∀ (L : List ℕ) (S : Finset ℕ), (∀ j ∈ L, j ∈ I) → S ⊆ I →
      L.foldl (removeStep g D e X) S ⊆ I := by
  intro L
  induction L with
  | nil => intro S _ h; exact h
  | cons i L ih =>
    intro S hmem hS
    rw [List.foldl_cons]
    refine ih (removeStep g D e X S i)
      (fun j hj => hmem j (List.mem_cons_of_mem i hj)) ?_
    have hiI : i ∈ I := hmem i (List.mem_cons_self _ _)
    have hsub : S.erase i ⊆ I := (Finset.erase_subset i S).trans hS
    unfold removeStep
    by_cases h1 : isCoverageSetClose g (S.erase i) D e X = true
    · by_cases h2 : isCoverageSet g (S.erase i) D e X = true
      · simpa [h1, h2] using hsub
      · simpa [h1, h2] using Finset.insert_subset hiI hsub
    · simpa [h1] using Finset.insert_subset hiI hsub

theorem except_bind_ok {e a b : Type} (x : a) (f : a → Except e b) :
    (Except.ok x >>= f) = f x := rfl

theorem coverNode_subset {g : Graph} {t : DomTree} {cost : ℕ → ℚ}
    {name : ℕ → String} {canCover canInst exits : Finset ℕ} :
    ∀ (fuel node : ℕ) (st st' : Finset ℕ × Finset ℕ),
      coverNode g t cost name canCover canInst exits fuel node st = .ok st' →
      st'.1 ⊆ canInst ∪ st.1 := by
  intro fuel
  induction fuel with
  | zero => intro node st st' h; simp [coverNode] at h
  | succ fuel ih =>
    intro node st st' h
    simp only [coverNode] at h
    by_cases hexit : exitWithout g t node exits
        ((t.children node).filter (fun j => j ∈ canCover)) = true
    · rw [if_pos hexit] at h
      by_cases hinst : node ∉ canInst
      · rw [if_pos hinst] at h
        cases h
      · rw [if_neg hinst] at h
        cases h
        intro x hx
        rcases Finset.mem_insert.mp hx with hx | hx
        · exact Finset.mem_union_left _ (hx ▸ not_not.mp hinst)
        · exact Finset.mem_union_right _ hx
    · rw [if_neg hexit] at h
      rcases hcc : cheapestChildren g t cost name node canCover st.2 exits with
        err | cheap
      · rw [hcc] at h
        cases h
      · rw [hcc] at h
        rw [except_bind_ok] at h
        have hfold : ∀ (l : List ℕ) (st0 stf : Finset ℕ × Finset ℕ),
            l.foldlM
              (fun s c => coverNode g t cost name canCover canInst exits fuel c s)
              st0 = .ok stf → stf.1 ⊆ canInst ∪ st0.1 := by
          intro l
          induction l with
          | nil =>
            intro st0 stf hf
            simp only [List.foldlM_nil] at hf
            cases hf
            exact Finset.subset_union_right
          | cons c l ihl =>
            intro st0 stf hf
            simp only [List.foldlM_cons] at hf
            rcases hc : coverNode g t cost name canCover canInst exits fuel c st0
              with err | st1
            · rw [hc] at hf
              cases hf
            · rw [hc] at hf
              rw [except_bind_ok] at hf
              have h1 := ih c st0 st1 hc
              have h2 := ihl st1 stf hf
              intro x hx
              rcases Finset.mem_union.mp (h2 hx) with hx' | hx'
              · exact Finset.mem_union_left _ hx'
              · rcases Finset.mem_union.mp (h1 hx') with hx'' | hx''
                · exact Finset.mem_union_left _ hx''
                · exact Finset.mem_union_right _ hx''
        rcases hres : (ascList cheap).foldlM
            (fun s c => coverNode g t cost name canCover canInst exits fuel c s)
            st with err | stf
        · rw [hres] at h
          cases h
        · rw [hres] at h
          rw [except_bind_ok] at h
          cases h
          exact hfold _ st stf hres

theorem domPass2Step_subset {g : Graph} {t : DomTree} {cost : ℕ → ℚ}
    {name : ℕ → String}
    {canProbe wantData exits canCover needInst : Finset ℕ}
    {st st1 : Finset ℕ × Finset ℕ} {i : ℕ}
    (h : domPass2Step g t cost name canProbe wantData exits canCover needInst
      st i = .ok st1) :
    st1.1 ⊆ canProbe ∪ st.1 := by
  unfold domPass2Step at h
  by_cases hw : i ∉ wantData
  · rw [if_pos hw] at h
    cases h
    exact Finset.subset_union_right
  · rw [if_neg hw] at h
    by_cases hn : i ∈ needInst ∧ i ∈ canProbe
    · rw [if_pos hn] at h
      cases h
      intro x hx
      rcases Finset.mem_insert.mp hx with hx | hx
      · exact Finset.mem_union_left _ (hx ▸ hn.2)
      · exact Finset.mem_union_right _ hx
    · rw [if_neg hn] at h
      by_cases hni : i ∉ needInst
      · rw [if_pos hni] at h
        rcases hcn : coverNode g t cost name canCover canProbe exits
            (t.nodes.card + 1) i
            (st.1, if ¬ exitWithout g t i exits
                ((t.children i).filter (fun j => j ∈ st.2)) = true
              then insert i st.2 else st.2) with err | st2
        · rw [hcn] at h
          cases h
        · rw [hcn] at h
          rw [except_bind_ok] at h
          cases h
          have hs := coverNode_subset _ _ _ st2 hcn
          exact hs
      · rw [if_neg hni] at h
        cases h
        exact Finset.subset_union_right

theorem domPass2_subset {g : Graph} {t : DomTree} {cost : ℕ → ℚ}
    {name : ℕ → String} {canProbe wantData exits canCover needInst : Finset ℕ}
    {order : List ℕ} {st' : Finset ℕ × Finset ℕ}
    (h : domPass2 g t cost name canProbe wantData exits canCover needInst
      order = .ok st') :
    st'.1 ⊆ canProbe := by
  unfold domPass2 at h
  suffices hgen : ∀ (l : List ℕ) (st0 stf : Finset ℕ × Finset ℕ),
      l.foldlM (domPass2Step g t cost name canProbe wantData exits canCover
        needInst) st0 = .ok stf →
      stf.1 ⊆ canProbe ∪ st0.1 by
    have hres := hgen order (∅, ∅) st' h
    intro x hx
    rcases Finset.mem_union.mp (hres hx) with hx' | hx'
    · exact hx'
    · simp at hx'
  intro l
  induction l with
  | nil =>
    intro st0 stf hf
    simp only [List.foldlM_nil] at hf
    cases hf
    exact Finset.subset_union_right
  | cons i l ihl =>
    intro st0 stf hf
    simp only [List.foldlM_cons] at hf
    rcases hstep : domPass2Step g t cost name canProbe wantData exits canCover
        needInst st0 i with err | st1
    · rw [hstep] at hf
      cases hf
    · rw [hstep] at hf
      rw [except_bind_ok] at hf
      have h1 := domPass2Step_subset hstep
      have h2 := ihl st1 stf hf
      intro x hx
      rcases Finset.mem_union.mp (h2 hx) with hx' | hx'
      · exact Finset.mem_union_left _ hx'
      · rcases Finset.mem_union.mp (h1 hx') with hx'' | hx''
        · exact Finset.mem_union_left _ hx''
        · exact Finset.mem_union_right _ hx''

theorem lemonLoop_subset {solve : List (Finset ℕ) → Finset ℕ}
    {findTri : Finset ℕ → ℕ → ℕ → ℕ → ℕ → ℕ → List (Finset ℕ)}
    {I D : Finset ℕ} :
    ∀ (fuel : ℕ) (cons : List (Finset ℕ)) (r : Finset ℕ),
      lemonLoop solve findTri I D fuel cons = .ok r → r ⊆ I := by
  intro fuel
  induction fuel with
  | zero =>
    intro cons r h
    cases h
    exact Finset.empty_subset I
  | succ fuel ih =>
    intro cons r h
    simp only [lemonLoop] at h
    by_cases ht : lemonFindNew findTri D (I ∩ solve cons) = []
    · rw [if_pos ht] at h
      cases h
      exact Finset.inter_subset_left
    · rw [if_neg ht] at h
      rcases hcons : addConsToMIP (lemonFindNew findTri D (I ∩ solve cons)) I
          cons with err | cons'
      · rw [hcons] at h
        cases h
      · rw [hcons] at h
        rw [except_bind_ok] at h
        exact ih cons' r h

/-- Claim C4: every optimizer returns a subset of the can-instrument set.
The greedy pass only erases and re-inserts members of I; the dominator
commit pass inserts only nodes that passed the canProbe (canInst) check,
and its fallback returns I itself; the exact solver's result is read back
through the per-canProbe-variable map, i.e. intersected with I, whatever
the external solver returns. -/
theorem claim_C4 :
    (∀ (g : Graph) (cost : ℕ → ℚ) (name : ℕ → String) (e : ℕ)
        (I D X : Finset ℕ), locallyOptimal g cost name e I D X ⊆ I) ∧
    (∀ (g : Graph) (t : DomTree) (cost : ℕ → ℚ) (name : ℕ → String)
        (I D X r : Finset ℕ),
        domGetOptimizedProbes g t cost name I D X = .ok r → r ⊆ I) ∧
    (∀ (solve : List (Finset ℕ) → Finset ℕ)
        (findTri : Finset ℕ → ℕ → ℕ → ℕ → ℕ → ℕ → List (Finset ℕ))
        (I D r : Finset ℕ),
        lemonOptimize solve findTri I D = .ok r → r ⊆ I) := by
  refine ⟨?_, ?_, ?_⟩
  · intro g cost name e I D X
    unfold locallyOptimal
    by_cases hD : D = ∅
    · rw [if_pos hD]
      exact Finset.empty_subset I
    · rw [if_neg hD]
      refine foldl_removeStep_subset _ I ?_ (Finset.Subset.refl I)
      intro j hj
      exact mem_ascList.mp ((perm_sortBlocksByCost cost name I).subset hj)
  · intro g t cost name I D X r h
    unfold domGetOptimizedProbes at h
    rcases horder : reverseTopo t with err | order
    · rw [horder] at h
      cases h
    · rw [horder] at h
      rw [except_bind_ok] at h
      by_cases hunc : D \ (domPass1 g t I X order).1 ≠ ∅
      · rw [if_pos hunc] at h
        cases h
        exact Finset.Subset.refl I
      · rw [if_neg hunc] at h
        rcases hp2 : domPass2 g t cost name I D X (domPass1 g t I X order).1
            (domPass1 g t I X order).2 order with err | st
        · rw [hp2] at h
          cases h
        · rw [hp2] at h
          rw [except_bind_ok] at h
          by_cases hcov : D \ st.2 ≠ ∅
          · rw [if_pos hcov] at h
            cases h
          · rw [if_neg hcov] at h
            cases h
            exact domPass2_subset hp2
  · intro solve findTri I D r h
    unfold lemonOptimize at h
    rcases hcons : addConsToMIP (getTriangles findTri ∅ D 0 0 0 0) I []
        with err | cons
    · rw [hcons] at h
      cases h
    · rw [hcons] at h
      rw [except_bind_ok] at h
      exact lemonLoop_subset 200 cons r h

/-- Claim C4, witness: instances of the subset property for all three
optimizers on concrete inputs. -/
theorem claim_C4_witness :
    locallyOptimal gTwo exCost exName 0 {0, 1} {0, 1} {0, 1} ⊆ {0, 1} ∧
    ({1} : Finset ℕ) ⊆ {0, 1} ∧
    lemonOptimize (fun _ => {5}) (fun _ _ _ _ _ _ => []) {0, 1} {1} =
      .ok ∅ ∧
    (∅ : Finset ℕ) ⊆ {0, 1} :=
  ⟨claim_C4.1 gTwo exCost exName 0 {0, 1} {0, 1} {0, 1},
   claim_C4.2.1 gTwo tTwo exCost exName {0, 1} {0, 1} {0, 1} {1} (by decide),
   by decide,
   claim_C4.2.2 (fun _ => {5}) (fun _ _ _ _ _ _ => []) {0, 1} {1} ∅ (by decide)⟩

/-- Claim C5: the conservative guard of the dominator optimizer.  When the
reachability pass leaves some desired node outside the computed canCover
set, getOptimizedProbes returns the can-instrument set unchanged: no error
is raised and the commit pass does not run. -/
theorem claim_C5 {g : Graph} {t : DomTree} {cost : ℕ → ℚ}
    {name : ℕ → String} {canProbe wantData crashPoints : Finset ℕ}
    {order : List ℕ}
    (horder : reverseTopo t = .ok order)
    (huncov : wantData \ (domPass1 g t canProbe crashPoints order).1 ≠ ∅) :
    domGetOptimizedProbes g t cost name canProbe wantData crashPoints =
      .ok canProbe := by
  unfold domGetOptimizedProbes
  rw [horder, except_bind_ok, if_pos huncov]

/-- Claim C5, witness: on the line 0 -> 1 with nothing instrumentable and
D = X = {1}, node 1 cannot be covered, and the optimizer returns
canProbe = ∅ unchanged, with no error. -/
theorem claim_C5_witness :
    reverseTopo tLine = .ok [1, 0] ∧
    domGetOptimizedProbes gLine tLine exCost exName ∅ {1} {1} = .ok ∅ :=
  ⟨by decide,
   @claim_C5 gLine tLine exCost exName ∅ {1} {1} [1, 0] (by decide) (by decide)⟩

/-- Claim C9: the oracle's reachability searches terminate on every finite
graph, cycles included.  The worklist loops of connectedExcluding
(searchAux) and isConnectedExcluding (connAux) stabilize at the canonical
fuel: any two sufficient fuels give the same value, so each loop performs
at most searchFuel iterations (one per worklist entry plus a bounded number
per unvisited node) and the fuelled definitions used throughout this file
compute the limits of the loops.  On the back-edge loop of spec scenario 3 the
oracle terminates with a definite answer, and the back edge is treated as
a valid path segment: node 1 lies on a path from 2 to the exit 3 only by
taking the back edge 2 -> 1. -/
theorem claim_C9 :
    (∀ (g : Graph) (fwd : Bool) (excl visited : Finset ℕ) (wl : List ℕ)
        (f1 f2 : ℕ), (∀ n ∈ wl, n ∈ g.V) →
        searchFuel g visited wl ≤ f1 → searchFuel g visited wl ≤ f2 →
        searchAux (g.nbr fwd) excl f1 visited wl =
          searchAux (g.nbr fwd) excl f2 visited wl) ∧
    (∀ (g : Graph) (t excl visited : Finset ℕ) (wl : List ℕ) (f1 f2 : ℕ),
        (∀ n ∈ wl, n ∈ g.V) →
        searchFuel g visited wl ≤ f1 → searchFuel g visited wl ≤ f2 →
        connAux g.succs t excl f1 visited wl =
          connAux g.succs t excl f2 visited wl) ∧
    isCoverageSet gLoop ∅ {1} 0 {3} = true ∧
    isCoverageSetClose gLoop ∅ {1} 0 {3} = true ∧
    (1 : ℕ) ∈ connectedExcluding gLoop {2} {3} ∅ := by
  refine ⟨?_, ?_, by decide, by decide, by decide⟩
  · intro g fwd excl visited wl f1 f2 hwl h1 h2
    exact searchAux_congr (fun n m h => mem_nbr_V h)
      (fun n hn => nbr_length_le hn) f1 f2 visited wl hwl h1 h2
  · intro g t excl visited wl f1 f2 hwl h1 h2
    exact connAux_congr (fun n m h => mem_succs_V h)
      (fun n hn => succs_length_le hn) f1 f2 visited wl hwl h1 h2

/-- Claim C9, witness: the stabilization statements applied on the loop
graph with ample fuel. -/
theorem claim_C9_witness :
    searchAux (gLoop.nbr true) ∅ 1000 ∅ [0] =
      searchAux (gLoop.nbr true) ∅ (searchFuel gLoop ∅ [0]) ∅ [0] ∧
    connAux gLoop.succs {3} ∅ 1000 ∅ [0] =
      connAux gLoop.succs {3} ∅ (searchFuel gLoop ∅ [0]) ∅ [0] :=
  ⟨claim_C9.1 gLoop true ∅ ∅ [0] 1000 (searchFuel gLoop ∅ [0])
      (by decide) (by decide) (by decide),
   claim_C9.2.1 gLoop {3} ∅ ∅ [0] 1000 (searchFuel gLoop ∅ [0])
      (by decide) (by decide) (by decide)⟩

/-! Ordering facts about the block comparator (claim C6). -/

theorem blockBefore_asymm {cost : ℕ → ℚ} {name : ℕ → String} {a b : ℕ}
    (h : blockBefore cost name a b = true) :
    blockBefore cost name b a = false := by
  unfold blockBefore at h ⊢
  by_cases hc : cost a = cost b
  · rw [if_pos hc] at h
    rw [if_pos hc.symm]
    simp only [decide_eq_true_eq] at h
    simp only [decide_eq_false_iff_not]
    exact lt_asymm h
  · rw [if_neg hc] at h
    rw [if_neg (fun hcc => hc hcc.symm)]
    simp only [decide_eq_true_eq] at h
    simp only [decide_eq_false_iff_not]
    exact lt_asymm h

theorem blockBefore_trans {cost : ℕ → ℚ} {name : ℕ → String} {a b c : ℕ}
    (h1 : blockBefore cost name a b = true)
    (h2 : blockBefore cost name b c = true) :
    blockBefore cost name a c = true := by
  unfold blockBefore at h1 h2 ⊢
  by_cases hab : cost a = cost b <;> by_cases hbc : cost b = cost c
  · rw [if_pos hab] at h1
    rw [if_pos hbc] at h2
    rw [if_pos (hab.trans hbc)]
    simp only [decide_eq_true_eq] at h1 h2 ⊢
    exact lt_trans h2 h1
  · rw [if_neg hbc] at h2
    simp only [decide_eq_true_eq] at h2
    have hac : ¬ cost a = cost c := by
      intro hcc
      rw [hab] at hcc
      exact absurd hcc.symm (ne_of_lt h2)
    rw [if_neg hac]
    simp only [decide_eq_true_eq]
    rw [hab]
    exact h2
  · rw [if_neg hab] at h1
    simp only [decide_eq_true_eq] at h1
    have hac : ¬ cost a = cost c := by
      intro hcc
      rw [← hbc] at hcc
      exact absurd hcc.symm (ne_of_lt h1)
    rw [if_neg hac]
    simp only [decide_eq_true_eq]
    rw [← hbc]
    exact h1
  · rw [if_neg hab] at h1
    rw [if_neg hbc] at h2
    simp only [decide_eq_true_eq] at h1 h2
    have hca : cost c < cost a := lt_trans h2 h1
    rw [if_neg (fun hcc => absurd hcc.symm (ne_of_lt hca))]
    simp only [decide_eq_true_eq]
    exact hca

theorem pairwise_insertByCost {cost : ℕ → ℚ} {name : ℕ → String} (x : ℕ) :
    ∀ l : List ℕ,
      l.Pairwise (fun a b => blockBefore cost name b a = false) →
      (insertByCost cost name x l).Pairwise
        (fun a b => blockBefore cost name b a = false) := by
  intro l
  induction l with
  | nil => intro _; simp [insertByCost]
  | cons y ys ih =>
    intro hp
    have hhead := (List.pairwise_cons.mp hp).1
    have htail := (List.pairwise_cons.mp hp).2
    unfold insertByCost
    by_cases hxy : blockBefore cost name x y = true
    · rw [if_pos hxy]
      refine List.pairwise_cons.mpr ⟨?_, hp⟩
      intro z hz
      rcases List.mem_cons.mp hz with hz | hz
      · exact hz ▸ blockBefore_asymm hxy
      · by_contra hzx
        rw [Bool.not_eq_false] at hzx
        have hzy := blockBefore_trans hzx hxy
        rw [hhead z hz] at hzy
        cases hzy
    · rw [if_neg hxy]
      refine List.pairwise_cons.mpr ⟨?_, ih htail⟩
      intro z hz
      have hz' := (perm_insertByCost cost name x ys).mem_iff.mp hz
      rcases List.mem_cons.mp hz' with hz' | hz'
      · subst hz'
        rw [Bool.not_eq_true] at hxy
        exact hxy
      · exact hhead z hz'

theorem pairwise_sortBlocksByCost (cost : ℕ → ℚ) (name : ℕ → String)
    (blocks : Finset ℕ) :
    (sortBlocksByCost cost name blocks).Pairwise
      (fun a b => blockBefore cost name b a = false) := by
  unfold sortBlocksByCost
  induction ascList blocks with
  | nil => simp
  | cons a l ih =>
    rw [List.foldr_cons]
    exact pairwise_insertByCost a _ ih

theorem descOrder_of_not_before {cost : ℕ → ℚ} {name : ℕ → String}
    {a b : ℕ} (hab : blockBefore cost name b a = false) (hne : a ≠ b)
    (hname : name a = name b → a = b) : DescOrder cost name a b := by
  unfold blockBefore at hab
  by_cases hc : cost b = cost a
  · rw [if_pos hc] at hab
    simp only [decide_eq_false_iff_not] at hab
    rcases lt_trichotomy (name a) (name b) with h | h | h
    · exact absurd h hab
    · exact absurd (hname h) hne
    · exact Or.inr ⟨hc.symm, h⟩
  · rw [if_neg hc] at hab
    simp only [decide_eq_false_iff_not] at hab
    rcases lt_trichotomy (cost a) (cost b) with h | h | h
    · exact absurd h hab
    · exact absurd h.symm hc
    · exact Or.inl h

/-- Claim C6: the processing order and gating of the greedy pass and gating.  Part 1: when
block names are distinct (within I), the list the pass iterates over is
strictly sorted by descending cost with ties broken by descending name.
Part 2: it is a permutation of the members of I.  Part 3: for a nonempty desired
set the pass folds the removal step over exactly this list starting from I.
Part 4: each step keeps the block removed precisely when the close oracle
accepts first and the exact oracle also accepts; otherwise the erase is
undone exactly. -/
theorem claim_C6 (g : Graph) (cost : ℕ → ℚ) (name : ℕ → String) (e : ℕ)
    (I D X : Finset ℕ)
    (hinj : ∀ a ∈ I, ∀ b ∈ I, name a = name b → a = b) :
    List.Sorted (DescOrder cost name) (sortBlocksByCost cost name I) ∧
    (∀ x, x ∈ sortBlocksByCost cost name I ↔ x ∈ I) ∧
    (sortBlocksByCost cost name I).Nodup ∧
    (D ≠ ∅ → locallyOptimal g cost name e I D X =
      (sortBlocksByCost cost name I).foldl (removeStep g D e X) I) ∧
    (∀ (S : Finset ℕ) (i : ℕ), i ∈ S →
      removeStep g D e X S i =
        if isCoverageSetClose g (S.erase i) D e X = true ∧
            isCoverageSet g (S.erase i) D e X = true
        then S.erase i else S) := by
  have hperm := perm_sortBlocksByCost cost name I
  have hmem : ∀ x, x ∈ sortBlocksByCost cost name I ↔ x ∈ I := by
    intro x
    rw [hperm.mem_iff, mem_ascList]
  have hnd : (sortBlocksByCost cost name I).Nodup :=
    hperm.nodup_iff.mpr nodup_ascList
  refine ⟨?_, hmem, hnd, ?_, ?_⟩
  · have hpw := pairwise_sortBlocksByCost cost name I
    have hand := List.Pairwise.and hpw hnd
    refine hand.imp_of_mem ?_
    intro a b ha hb hab
    exact descOrder_of_not_before hab.1 hab.2
      (fun hn => hinj a ((hmem a).mp ha) b ((hmem b).mp hb) hn)
  · intro hD
    unfold locallyOptimal
    rw [if_neg hD]
  · intro S i hiS
    unfold removeStep
    by_cases h1 : isCoverageSetClose g (S.erase i) D e X = true
    · by_cases h2 : isCoverageSet g (S.erase i) D e X = true
      · simp [h1, h2]
      · simp [h1, h2, Finset.insert_erase hiS]
    · simp [h1, fun hc : _ ∧ _ => h1 hc.1, Finset.insert_erase hiS]

/-- Claim C6, witness: on a two-block set with distinct costs 8 > 7, the
pass processes block 0 first; the instantiated conjunction of claim C6
holds at this input. -/
theorem claim_C6_witness :
    (List.Sorted (DescOrder exCostD exName)
        (sortBlocksByCost exCostD exName {0, 1}) ∧
      (∀ x, x ∈ sortBlocksByCost exCostD exName {0, 1} ↔ x ∈ ({0, 1} : Finset ℕ)) ∧
      (sortBlocksByCost exCostD exName {0, 1}).Nodup ∧
      (({1} : Finset ℕ) ≠ ∅ → locallyOptimal gTwo exCostD exName 0 {0, 1} {1} {0} =
        (sortBlocksByCost exCostD exName {0, 1}).foldl
          (removeStep gTwo {1} 0 {0}) {0, 1}) ∧
      (∀ (S : Finset ℕ) (i : ℕ), i ∈ S →
        removeStep gTwo {1} 0 {0} S i =
          if isCoverageSetClose gTwo (S.erase i) {1} 0 {0} = true ∧
              isCoverageSet gTwo (S.erase i) {1} 0 {0} = true
          then S.erase i else S)) ∧
    sortBlocksByCost exCostD exName {0, 1} = [0, 1] :=
  ⟨claim_C6 gTwo exCostD exName 0 {0, 1} {1} {0} (by decide), by decide⟩

/-! Positivity of the exact solver's cost map (claims C7 and C8). -/

theorem nodeCost_nonneg (freq : ℕ → ℕ) (e n : ℕ) : 0 ≤ nodeCost freq e n := by
  unfold nodeCost
  have h1 : (0 : ℚ) ≤ ((freq n / freq e : ℕ) : ℚ) := Nat.cast_nonneg _
  have h2 : (0 : ℚ) ≤ ((freq n % freq e : ℕ) : ℚ) / ((freq e : ℕ) : ℚ) :=
    div_nonneg (Nat.cast_nonneg _) (Nat.cast_nonneg _)
  exact add_nonneg h1 h2

theorem lemonNodeCost_pos (freq : ℕ → ℕ) (e n : ℕ) :
    0 < lemonNodeCost freq e n := by
  unfold lemonNodeCost
  by_cases h : nodeCost freq e n = 0
  · rw [if_pos h]
    norm_num
  · rw [if_neg h]
    exact lt_of_le_of_ne (nodeCost_nonneg freq e n) (fun hc => h hc.symm)

/-- Claim C7: with an empty desired set, the greedy optimizer returns the
empty probe set immediately, and the exact optimizer returns the empty set
for any per-node triangle search and any external solver whose
unconstrained solve is cost-minimal among the subsets of I (the LEMON cost
map is strictly positive, so the unconstrained optimum selects nothing; the
triangle searches, which iterate over the desired nodes, find nothing, and
the first solution is final). -/
theorem claim_C7 (g : Graph) (cost : ℕ → ℚ) (name : ℕ → String) (e e' : ℕ)
    (I X : Finset ℕ) (freq : ℕ → ℕ)
    (solve : List (Finset ℕ) → Finset ℕ)
    (findTri : Finset ℕ → ℕ → ℕ → ℕ → ℕ → ℕ → List (Finset ℕ))
    (hopt : ∀ T ⊆ I,
      (I ∩ solve []).sum (lemonNodeCost freq e') ≤
        T.sum (lemonNodeCost freq e')) :
    locallyOptimal g cost name e I ∅ X = ∅ ∧
    lemonOptimize solve findTri I ∅ = .ok ∅ := by
  constructor
  · unfold locallyOptimal
    rw [if_pos rfl]
  · have hsol : I ∩ solve [] = ∅ := by
      by_contra hne
      rcases Finset.nonempty_iff_ne_empty.mpr hne with ⟨x, hx⟩
      have hle := hopt ∅ (Finset.empty_subset I)
      rw [Finset.sum_empty] at hle
      have hpos : 0 < (I ∩ solve []).sum (lemonNodeCost freq e') :=
        Finset.sum_pos (fun i _ => lemonNodeCost_pos freq e' i) ⟨x, hx⟩
      exact absurd hle (not_le.mpr hpos)
    have hrun : lemonOptimize solve findTri I ∅ = .ok (I ∩ solve []) := rfl
    rw [hrun, hsol]

/-- Claim C7, witness: concrete instance with the all-zero solver (optimal
for the empty constraint list since costs are positive). -/
theorem claim_C7_witness :
    locallyOptimal gTwo exCost exName 0 {0, 1} ∅ {0} = ∅ ∧
    lemonOptimize (fun _ => ∅) (fun _ _ _ _ _ _ => []) {0, 1} ∅ = .ok ∅ :=
  claim_C7 gTwo exCost exName 0 0 {0, 1} {0} exFreq (fun _ => ∅)
    (fun _ _ _ _ _ _ => [])
    (fun T _ => by
      simp only [Finset.inter_empty, Finset.sum_empty]
      exact Finset.sum_nonneg (fun i _ => le_of_lt (lemonNodeCost_pos exFreq 0 i)))

/-- Claim C8, counterexample: with the concrete frequency estimate exFreq
(entry frequency 4, node 1 frequency 0), the graph cost map used by the
greedy and dominator optimizers assigns node 1 the cost exactly 0 - the
defensive floor exists only in the exact (LEMON) solver's own cost map, so
"no node used by the optimizers has cost exactly 0" fails for the naive
cost map, while entry cost 1 and the LEMON floor hold. -/
theorem claim_C8_counterexample :
    nodeCost exFreq 0 0 = 1 ∧
    nodeCost exFreq 0 1 = 0 ∧
    lemonNodeCost exFreq 0 1 = 1 / 100000 := by
  refine ⟨by norm_num [nodeCost, exFreq], by norm_num [nodeCost, exFreq], ?_⟩
  have h0 : nodeCost exFreq 0 1 = 0 := by norm_num [nodeCost, exFreq]
  rw [lemonNodeCost, if_pos h0]

/-- Claim C8, amended: the entry node's cost is exactly 1 whenever the
entry frequency is nonzero (costs are scaled by the entry frequency), and
the defensive floor for zero costs is applied in the LEMON solver's cost
map (which is therefore strictly positive); the naive graph's own cost map
can still contain exact zeros. -/
theorem claim_C8_amended (freq : ℕ → ℕ) (e n : ℕ) (he : freq e ≠ 0) :
    nodeCost freq e e = 1 ∧
    0 < lemonNodeCost freq e n ∧
    (nodeCost freq e n = 0 → lemonNodeCost freq e n = 1 / 100000) := by
  refine ⟨?_, lemonNodeCost_pos freq e n, ?_⟩
  · unfold nodeCost
    rw [Nat.div_self (Nat.pos_of_ne_zero he), Nat.mod_self]
    simp
  · intro h0
    rw [lemonNodeCost, if_pos h0]

/-- Claim C8, witness: the amended statement at the concrete zero-frequency
instance. -/
theorem claim_C8_witness :
    exFreq 0 ≠ 0 ∧
    (nodeCost exFreq 0 0 = 1 ∧ 0 < lemonNodeCost exFreq 0 1 ∧
      (nodeCost exFreq 0 1 = 0 → lemonNodeCost exFreq 0 1 = 1 / 100000)) :=
  ⟨by decide, claim_C8_amended exFreq 0 1 (by decide)⟩

end CsiCov
